import Mathlib

/-!
Formal model of the `vite-plugin-rehost` sources (`src/AsyncFileCache.ts`,
`src/plugin.ts` and the earlier plugin revision in `src/unnamed/part_000`).

The TypeScript code is shallowly embedded: JS objects used as string-keyed
maps become association lists that preserve insertion order, promises become
numeric task identifiers whose eventual outcome is given by an environment
`Env : Nat → Except String String`, and the single-threaded cooperative
scheduler becomes explicit sequences of synchronous mutation operations.
-/

namespace Rehost

/-- Association-list lookup, modelling JS object property read `obj[key]`. -/
def lookupA {α : Type} : List (String × α) → String → Option α
  | [], _ => none
  | (k, v) :: rest, key => if k = key then some v else lookupA rest key

/-- Association-list insert, modelling JS object assignment `obj[key] = v`:
an existing key keeps its value slot (and therefore its insertion-order
position as reported by `Object.entries`), a new key is appended at the end. -/
def insertA {α : Type} : List (String × α) → String → α → List (String × α)
  | [], key, v => [(key, v)]
  | (k, w) :: rest, key, v =>
      if k = key then (k, v) :: rest else (k, w) :: insertA rest key v

/-- Association-list removal, modelling JS `delete obj[key]`. -/
def removeA {α : Type} : List (String × α) → String → List (String × α)
  | [], _ => []
  | (k, w) :: rest, key =>
      if k = key then removeA rest key else (k, w) :: removeA rest key

/-!
A tiny backtracking regular-expression evaluator, used to embed the two
regular expressions the sources delegate URL classification to:
the `url-regex` npm package (used by `isExternalUrl` in `AsyncFileCache.ts`
and `plugin.ts`) and the literal `/^(https?:)?\/\//` of `part_000`.
A matcher maps an input character list to the list of possible remainders,
in backtracking preference order.
-/

/-- A matcher: input suffix to possible remainders, preferred first. -/
abbrev MatchFn : Type := List Char → List (List Char)

/-- Sequential composition of matchers (regex concatenation). -/
def mseq (a b : MatchFn) : MatchFn := fun cs => (a cs).flatMap b

/-- Ordered alternation of matchers (regex `|`). -/
def malt (a b : MatchFn) : MatchFn := fun cs => a cs ++ b cs

/-- Single character from a class (regex `[...]`). -/
def mchar (p : Char → Bool) : MatchFn
  | [] => []
  | c :: cs => if p c then [cs] else []

/-- Greedy option (regex `(?:...)?`): try matching first, then skipping. -/
def mopt (a : MatchFn) : MatchFn := fun cs => a cs ++ [cs]

/-- Greedy star over a character class (regex `[...]*`): remainders from
consuming the longest run first down to consuming nothing. -/
def mmany (p : Char → Bool) : MatchFn
  | [] => [[]]
  | c :: cs => if p c then mmany p cs ++ [c :: cs] else [c :: cs]

/-- Greedy plus over a character class (regex `[...]+`). -/
def mmany1 (p : Char → Bool) : MatchFn := mseq (mchar p) (mmany p)

/-- Exact literal (regex literal text), case-sensitive. -/
def mlit (lit : String) : MatchFn := fun cs =>
  if lit.data.isPrefixOf cs then [cs.drop lit.data.length] else []

/-- Exact literal under the regex `i` flag: letters match both cases. -/
def mlitCI (lit : String) : MatchFn := fun cs =>
  if (lit.data.map Char.toLower).isPrefixOf ((cs.take lit.data.length).map Char.toLower)
  then [cs.drop lit.data.length] else []

/-- Greedy star over an arbitrary matcher, with fuel; empty iterations are
discarded exactly as JS regex engines do. More repetitions are preferred. -/
def mstarGo (g : MatchFn) : Nat → List Char → List (List Char)
  | 0, cs => [cs]
  | fuel + 1, cs =>
      (((g cs).filter (fun r => r.length < cs.length)).flatMap
        (mstarGo g fuel)) ++ [cs]

/-- Greedy star over an arbitrary matcher (regex `(?:...)*`). -/
def mstar (g : MatchFn) : MatchFn := fun cs => mstarGo g (cs.length + 1) cs

/-- Exactly `n` occurrences of a character class. -/
def mExactly (p : Char → Bool) : Nat → List Char → List (List Char)
  | 0, cs => [cs]
  | _ + 1, [] => []
  | n + 1, c :: cs => if p c then mExactly p n cs else []

/-- Bounded greedy repetition of a character class: between `lo` and `hi`
occurrences (regex `[...]{lo,hi}`), preferring more. -/
def mrep (p : Char → Bool) (lo hi : Nat) : MatchFn := fun cs =>
  (List.range (hi - lo + 1)).flatMap (fun k => mExactly p (hi - k) cs)

/-- At least `n` occurrences of a character class, greedy (regex `[...]{n,}`). -/
def matLeast (p : Char → Bool) (n : Nat) : MatchFn :=
  match n with
  | 0 => mmany p
  | m + 1 => mseq (mchar p) (matLeast p m)

/-- JS `\s` (whitespace) character class: space, tab, line terminators and
the Unicode space separators (NBSP, OGHAM, EN QUAD..HAIR SPACE, LS, PS,
NNBSP, MMSP, IDEOGRAPHIC SPACE, ZWNBSP). -/
def isJsWs (c : Char) : Bool :=
  c = ' ' || c = '\t' || c = '\n' || c = '\x0b' || c = '\x0c' || c = '\r' ||
  c.toNat = 0xa0 || c.toNat = 0x1680 ||
  (0x2000 ≤ c.toNat && c.toNat ≤ 0x200a) ||
  c.toNat = 0x2028 || c.toNat = 0x2029 || c.toNat = 0x202f ||
  c.toNat = 0x205f || c.toNat = 0x3000 || c.toNat = 0xfeff

/-- ASCII letter, as matched by `[a-z]` under the `i` flag. -/
def isLetterI (c : Char) : Bool :=
  ('a' ≤ c && c ≤ 'z') || ('A' ≤ c && c ≤ 'Z')

/-- ASCII digit. -/
def isDigitCh (c : Char) : Bool := '0' ≤ c && c ≤ '9'

/-- The class `[a-z¡-￿0-9]` of `url-regex`, under the `i` flag. -/
def isHostCh (c : Char) : Bool :=
  isLetterI c || isDigitCh c || (0xa1 ≤ c.toNat && c.toNat ≤ 0xffff)

/-- The class `[a-z¡-￿]` of the `url-regex` TLD, under `i`. -/
def isTldCh (c : Char) : Bool :=
  isLetterI c || (0xa1 ≤ c.toNat && c.toNat ≤ 0xffff)

/-- One dotted-quad segment of `ip-regex`:
`(?:25[0-5]|2[0-4][0-9]|1[0-9][0-9]|[1-9][0-9]|[0-9])`. -/
def ipSeg : MatchFn :=
  malt (mseq (mlit "25") (mchar (fun c => '0' ≤ c && c ≤ '5')))
    (malt (mseq (mlit "2") (mseq (mchar (fun c => '0' ≤ c && c ≤ '4')) (mchar isDigitCh)))
      (malt (mseq (mlit "1") (mseq (mchar isDigitCh) (mchar isDigitCh)))
        (malt (mseq (mchar (fun c => '1' ≤ c && c ≤ '9')) (mchar isDigitCh))
          (mchar isDigitCh))))

/-- The IPv4 alternative of `url-regex` (from the `ip-regex` dependency):
four dotted-quad segments. -/
def ipv4M : MatchFn :=
  mseq ipSeg (mseq (mlit ".") (mseq ipSeg
    (mseq (mlit ".") (mseq ipSeg (mseq (mlit ".") ipSeg)))))

/-- Model of the regular expression built by the `url-regex` npm package with
its default options (strict protocol, non-exact matching, flags `ig`):
`(?:(?:(?:[a-z]+:)?\/\/)|www\.)(?:\S+(?::\S*)?@)?` followed by
`(?:localhost|ipv4|host domain tld)` then an optional port and path.
This is the regex `isExternalUrl` delegates to in `AsyncFileCache.ts` and
`plugin.ts`. -/
def urlRegexM : MatchFn :=
  let protoM : MatchFn :=
    malt (mseq (mopt (mseq (mmany1 isLetterI) (mlit ":"))) (mlit "//"))
      (mlitCI "www.")
  let authM : MatchFn :=
    mopt (mseq (mmany1 (fun c => !isJsWs c))
      (mseq (mopt (mseq (mlit ":") (mmany (fun c => !isJsWs c)))) (mlit "@")))
  let hostM : MatchFn :=
    mseq (mstar (mseq (mchar isHostCh) (mmany (fun c => c = '-' || c = '_'))))
      (mmany1 isHostCh)
  let domainM : MatchFn :=
    mstar (mseq (mlit ".")
      (mseq (mstar (mseq (mchar isHostCh) (mmany (fun c => c = '-'))))
        (mmany1 isHostCh)))
  let tldM : MatchFn :=
    mseq (mlit ".") (mseq (matLeast isTldCh 2) (mopt (mlit ".")))
  let portM : MatchFn := mopt (mseq (mlit ":") (mrep isDigitCh 2 5))
  let pathM : MatchFn :=
    mopt (mseq (mchar (fun c => c = '/' || c = '?' || c = '#'))
      (mmany (fun c => !isJsWs c && c ≠ '"')))
  mseq protoM (mseq authM (mseq
    (malt (mlitCI "localhost") (malt ipv4M (mseq hostM (mseq domainM tldM))))
    (mseq portM pathM)))

/-- `RegExp.test` without the `^` anchor: search for a match starting at any
position of the input. -/
def searchAny (m : MatchFn) : List Char → Bool
  | [] => !(m []).isEmpty
  | c :: cs => !(m (c :: cs)).isEmpty || searchAny m cs

/-- `isExternalUrl` of `AsyncFileCache.ts` and `plugin.ts`:
`urlRegex().test(url)`. -/
def isExternalUrl (url : String) : Bool := searchAny urlRegexM url.data

/-- `isExternalUrl` of `src/unnamed/part_000`: `/^(https?:)?\/\//.test(url)`.
The regex is anchored at the start of the string. -/
def isExternalUrlBasic (url : String) : Bool :=
  !((mseq (mopt (mseq (mlit "http") (mseq (mopt (mlit "s")) (mlit ":"))))
      (mlit "//")) url.data).isEmpty

/-- The string `s` begins with the literal `p` (byte-wise prefix test). -/
def beginsWith (s p : String) : Bool := p.data.isPrefixOf s.data

/-!
The Identity Mapper: `toFilePath` with its helpers `decodeURIComponent` and
the URL components delivered by Node's `new URL(url)`.
-/

/-- Value of a hexadecimal digit. -/
def hexVal (c : Char) : Option Nat :=
  if '0' ≤ c ∧ c ≤ '9' then some (c.toNat - '0'.toNat)
  else if 'a' ≤ c ∧ c ≤ 'f' then some (c.toNat - 'a'.toNat + 10)
  else if 'A' ≤ c ∧ c ≤ 'F' then some (c.toNat - 'A'.toNat + 10)
  else none

/-- UTF-8 encoding of one character, as a byte list. -/
def utf8Bytes (c : Char) : List Nat :=
  let n := c.toNat
  if n < 0x80 then [n]
  else if n < 0x800 then [0xc0 + n / 64, 0x80 + n % 64]
  else if n < 0x10000 then [0xe0 + n / 4096, 0x80 + (n / 64) % 64, 0x80 + n % 64]
  else [0xf0 + n / 262144, 0x80 + (n / 4096) % 64, 0x80 + (n / 64) % 64, 0x80 + n % 64]

/-- Percent-decode a character stream to bytes: `%hh` becomes the byte `hh`,
any other character contributes its UTF-8 bytes. `none` on a `%` not followed
by two hex digits (the `URIError` case). Fuelled recursion; the wrapper
supplies enough fuel. -/
def pctBytes : Nat → List Char → Option (List Nat)
  | 0, _ => none
  | _ + 1, [] => some []
  | fuel + 1, c :: rest =>
      if c = '%' then
        match rest with
        | c1 :: c2 :: rest2 =>
            match hexVal c1, hexVal c2 with
            | some h1, some h2 =>
                (pctBytes fuel rest2).map (fun bs => (h1 * 16 + h2) :: bs)
            | _, _ => none
        | _ => none
      else (pctBytes fuel rest).map (fun bs => utf8Bytes c ++ bs)

/-- Strict UTF-8 decoding of a byte list: overlong encodings, surrogate code
points and out-of-range lead or continuation bytes are rejected, as the
ECMAScript `Decode` algorithm requires. Fuelled recursion. -/
def utf8Decode : Nat → List Nat → Option (List Char)
  | 0, _ => none
  | _ + 1, [] => some []
  | fuel + 1, b :: rest =>
      if b < 0x80 then (utf8Decode fuel rest).map (fun cs => Char.ofNat b :: cs)
      else if 0xc2 ≤ b ∧ b ≤ 0xdf then
        match rest with
        | b1 :: rest1 =>
            if 0x80 ≤ b1 ∧ b1 ≤ 0xbf then
              (utf8Decode fuel rest1).map
                (fun cs => Char.ofNat ((b - 0xc0) * 64 + (b1 - 0x80)) :: cs)
            else none
        | _ => none
      else if 0xe0 ≤ b ∧ b ≤ 0xef then
        match rest with
        | b1 :: b2 :: rest2 =>
            if (if b = 0xe0 then 0xa0 else 0x80) ≤ b1 ∧
                b1 ≤ (if b = 0xed then 0x9f else 0xbf) ∧
                0x80 ≤ b2 ∧ b2 ≤ 0xbf then
              (utf8Decode fuel rest2).map (fun cs =>
                Char.ofNat ((b - 0xe0) * 4096 + (b1 - 0x80) * 64 + (b2 - 0x80)) :: cs)
            else none
        | _ => none
      else if 0xf0 ≤ b ∧ b ≤ 0xf4 then
        match rest with
        | b1 :: b2 :: b3 :: rest3 =>
            if (if b = 0xf0 then 0x90 else 0x80) ≤ b1 ∧
                b1 ≤ (if b = 0xf4 then 0x8f else 0xbf) ∧
                0x80 ≤ b2 ∧ b2 ≤ 0xbf ∧ 0x80 ≤ b3 ∧ b3 ≤ 0xbf then
              (utf8Decode fuel rest3).map (fun cs =>
                Char.ofNat ((b - 0xf0) * 262144 + (b1 - 0x80) * 4096 +
                  (b2 - 0x80) * 64 + (b3 - 0x80)) :: cs)
            else none
        | _ => none
      else none

/-- Model of JS `decodeURIComponent`: percent-decode to bytes, then strict
UTF-8 decode; any malformed escape or invalid byte sequence is the thrown
`URIError`. -/
def decodeURIComponent (s : String) : Except String String :=
  match pctBytes (s.data.length + 1) s.data with
  | none => .error "URIError: URI malformed"
  | some bs =>
      match utf8Decode (bs.length + 1) bs with
      | none => .error "URIError: URI malformed"
      | some cs => .ok (String.mk cs)

/-- The components of a parsed WHATWG URL that `toFilePath` destructures:
`host`, `pathname` (still percent-encoded, as the URL parser reports it) and
the decoded `searchParams` name/value pairs. -/
structure URLParts where
  host : String
  pathname : String
  searchParams : List (String × String)
deriving DecidableEq, Repr

/-- JS `str.split(':')[0]`: the text before the first `:` (the whole string
when there is none). -/
def beforeColon (s : String) : String :=
  String.mk (s.data.takeWhile (fun c => c ≠ ':'))

/-- `toFilePath` of `AsyncFileCache.ts` (and of the second `plugin.ts`
revision), on the destructured URL components: the analytics host collapses
to `gtag.js`, the fonts host derives the name from the `family` parameter up
to the first `:`, every other host is host plus percent-decoded pathname.
A missing `family` parameter is the `TypeError` thrown by
`searchParams.get('family')!.split(':')`; a malformed escape in the pathname
is the `URIError` thrown by `decodeURIComponent`. -/
def toFilePath (u : URLParts) : Except String String :=
  let file := "/"
  if u.host = "www.googletagmanager.com" then
    .ok (file ++ u.host ++ "/gtag.js")
  else if u.host = "fonts.googleapis.com" then
    match lookupA u.searchParams "family" with
    | none => .error "TypeError: family is null"
    | some fam => .ok (file ++ u.host ++ "/" ++ beforeColon fam ++ ".css")
  else
    (decodeURIComponent u.pathname).map (fun p => file ++ u.host ++ p)

/-- Split a character list on a separator character. -/
def splitList : List Char → Char → List (List Char)
  | [], _ => [[]]
  | c :: rest, sep =>
      let r := splitList rest sep
      if c = sep then [] :: r else (c :: r.headD []) :: r.tail

/-- Form-urlencoded decoding of one query token (`URLSearchParams`): `+` is
a space, `%hh` escapes are decoded. The WHATWG decoder is lenient; this model
falls back to the raw token when the escapes or bytes are malformed. -/
def formDecode (s : String) : String :=
  match pctBytes (s.data.length + 1)
      (s.data.map (fun c => if c = '+' then ' ' else c)) with
  | some bs =>
      match utf8Decode (bs.length + 1) bs with
      | some cs => String.mk cs
      | none => s
  | none => s

/-- `URLSearchParams` query parsing: split on `&`, drop empty pieces, split
each piece at the first `=` and form-decode name and value. -/
def parseQuery (q : List Char) : List (String × String) :=
  (splitList q '&').filterMap (fun piece =>
    if piece.isEmpty then none
    else
      let name := piece.takeWhile (fun c => c ≠ '=')
      let value := (piece.drop name.length).drop 1
      some (formDecode (String.mk name), formDecode (String.mk value)))

/-- Model of Node's `new URL(url)` for absolute `http(s)://` URLs, reduced to
the three components the plugin reads: lowercased host, raw pathname
(defaulting to `/`), decoded search parameters. The fragment is stripped and
userinfo before `@` dropped; WHATWG path normalization and pathname
re-encoding are not modelled. Any other shape of input is the thrown
`TypeError` (in particular protocol-relative `//…` input). -/
def parseUrl (url : String) : Except String URLParts :=
  let cs := url.data
  let lower := cs.map Char.toLower
  let afterScheme : Option (List Char) :=
    if "https://".data.isPrefixOf lower then some (cs.drop 8)
    else if "http://".data.isPrefixOf lower then some (cs.drop 7)
    else none
  match afterScheme with
  | none => .error "TypeError: Invalid URL"
  | some rest =>
      let rest := rest.takeWhile (fun c => c ≠ '#')
      let authority := rest.takeWhile (fun c => c ≠ '/' && c ≠ '?')
      let afterAuth := rest.drop authority.length
      let hostPart := (splitList authority '@').getLastD []
      if hostPart.isEmpty then .error "TypeError: Invalid URL"
      else
        let path := afterAuth.takeWhile (fun c => c ≠ '?')
        let query := afterAuth.drop (path.length + 1)
        let pathname := if path.isEmpty then "/" else String.mk path
        .ok ⟨String.mk (hostPart.map Char.toLower), pathname, parseQuery query⟩

/-- `toFilePath` as invoked in the sources, on the raw URL string:
`new URL(url)` then the host-cased mapping. -/
def toFilePathStr (url : String) : Except String String :=
  (parseUrl url).bind toFilePath

/-!
The `AsyncFileCache` class. Promises are numeric task identifiers; an
environment `Env` assigns each identifier its settled outcome (resolved
content or rejection reason). All synchronous mutations of the run are
listed explicitly as `Op` values, which is exactly the single-threaded
cooperative interleaving the spec describes: every map mutation happens
synchronously, only network waits suspend.
-/

/-- Settled outcome of the promise with a given task identifier. -/
abbrev Env : Type := Nat → Except String String

/-- Bool-valued success test for an outcome. -/
def isOkE (e : Except String String) : Bool :=
  match e with
  | .ok _ => true
  | .error _ => false

/-- The resolved value of an outcome (placeholder on rejection). -/
def okValue (e : Except String String) : String :=
  match e with
  | .ok v => v
  | .error _ => ""

/-- The rolling completion barrier `filesPromise`. `set` replaces it by
`promise.then(() => prevPromise)`, which settles successfully exactly when
the newly added promise and, transitively, the whole previous chain do. -/
inductive Barrier : Type where
  | nil : Barrier
  | chain (tid : Nat) (prev : Barrier) : Barrier
deriving DecidableEq, Repr

/-- Task identifiers threaded through the barrier chain. -/
def chainTids : Barrier → List Nat
  | .nil => []
  | .chain t p => t :: chainTids p

/-- Length of the barrier chain. -/
def barrierLen : Barrier → Nat
  | .nil => 0
  | .chain _ p => barrierLen p + 1

/-- Awaiting the barrier: `promise.then(() => prevPromise)` rejects with the
promise's reason as soon as one chained promise rejects, and resolves once
the whole chain has resolved. -/
def barrierResultE (env : Env) : Barrier → Except String Unit
  | .nil => .ok ()
  | .chain t p =>
      match env t with
      | .error e => .error e
      | .ok _ => barrierResultE env p

/-- A not-yet-started producer stored in `this.loaders`: the closures
registered by `fetchStyles` (css text plus recursive rewriting),
`fetchScript` (text) and `fetchAsset` (buffer). Each begins by requesting
its URL through the memoizing `this.fetch`. -/
inductive Loader : Type where
  | text (url : String) : Loader
  | styles (url : String) : Loader
  | buffer (url : String) : Loader
deriving DecidableEq, Repr

/-- URL a loader fetches when started. -/
def loaderUrl : Loader → String
  | .text u => u
  | .styles u => u
  | .buffer u => u

/-- A network request as issued by `this.fetch`: the bare `fetch(url)` call
records the URL and the request-init headers passed along with it. -/
structure NetRequest where
  url : String
  headers : List (String × String)
deriving DecidableEq, Repr

/-- Body kinds a memoized response can be read as. -/
inductive BodyKind : Type where
  | text : BodyKind
  | buffer : BodyKind
deriving DecidableEq, Repr

/-- The mutable state of one `AsyncFileCache` instance, plus the
instrumentation needed to observe network traffic: `issued` lists every
network request issued so far (most recent first) and `nextTid` supplies
fresh promise identities. -/
structure CacheState where
  files : List (String × Nat)
  filesPromise : Barrier
  loaders : List (String × Loader)
  requests : List (String × Nat)
  nextTid : Nat
  issued : List NetRequest
deriving DecidableEq, Repr

/-- A freshly constructed `AsyncFileCache`. -/
def initState : CacheState :=
  { files := [], filesPromise := .nil, loaders := [], requests := [],
    nextTid := 0, issued := [] }

/-- `AsyncFileCache.fetch`: return the memoized in-flight request when the
URL is already in `this.requests`; otherwise issue `fetch(url)` — with no
request-init, hence no custom headers and no retry logic — and store the
request handle under the URL. (The `startTask`/`finally` logging wrapper
adopts the request's outcome unchanged and is omitted.) -/
def fetchP (s : CacheState) (url : String) : Nat × CacheState :=
  match lookupA s.requests url with
  | some t => (t, s)
  | none =>
      (s.nextTid,
        { s with
          requests := insertA s.requests url s.nextTid,
          nextTid := s.nextTid + 1,
          issued := { url := url, headers := [] } :: s.issued })

/-- `AsyncFileCache.fetchText`: the shared response handle read as text. -/
def asyncFetchText (s : CacheState) (url : String) :
    (BodyKind × Nat) × CacheState :=
  let (t, s') := fetchP s url
  ((BodyKind.text, t), s')

/-- `AsyncFileCache.fetchBuffer`: the shared response handle read as bytes. -/
def asyncFetchBuffer (s : CacheState) (url : String) :
    (BodyKind × Nat) × CacheState :=
  let (t, s') := fetchP s url
  ((BodyKind.buffer, t), s')

/-- `AsyncFileCache.has`. -/
def hasF (s : CacheState) (id : String) : Bool :=
  (lookupA s.files id).isSome || (lookupA s.loaders id).isSome

/-- `AsyncFileCache.set`: store the started promise under the identity and
chain it in front of the previous completion barrier. -/
def setF (s : CacheState) (id : String) (tid : Nat) : CacheState :=
  { s with
    files := insertA s.files id tid,
    filesPromise := .chain tid s.filesPromise }

/-- The guarded registration step shared by `fetchStyles`, `fetchScript` and
`fetchAsset`: `if (!this.files[file]) this.loaders[file] ??= loader`. -/
def regGuard (s : CacheState) (id : String) (ld : Loader) : CacheState :=
  if (lookupA s.files id).isSome then s
  else if (lookupA s.loaders id).isSome then s
  else { s with loaders := insertA s.loaders id ld }

/-- Starting a stored loader: every loader first requests its URL through
the memoizing `this.fetch`, then derives a fresh promise (`.then` on the
response) whose outcome the environment assigns independently. -/
def runLoader (s : CacheState) (ld : Loader) : Nat × CacheState :=
  let (_, s1) := fetchP s (loaderUrl ld)
  (s1.nextTid, { s1 with nextTid := s1.nextTid + 1 })

/-- `AsyncFileCache.get`: the memoized file promise; on first access the
stored loader is started, the resulting promise stored via `set`, and the
loader entry deleted. -/
def getF (s : CacheState) (id : String) : Option Nat × CacheState :=
  match lookupA s.files id with
  | some t => (some t, s)
  | none =>
      match lookupA s.loaders id with
      | some ld =>
          let (t, s1) := runLoader s ld
          (some t, { setF s1 id t with loaders := removeA s1.loaders id })
      | none => (none, s)

/-- One synchronous mutation of the run: a guarded registration (the
synchronous part of `fetchStyles` / `fetchScript` / `fetchAsset`), a `get`
(lazily starting the producer), or a direct `fetchText`/`fetchBuffer` call. -/
inductive Op : Type where
  | reg (id : String) (ld : Loader) : Op
  | getOp (id : String) : Op
  | fetchOnly (url : String) : Op
deriving DecidableEq, Repr

/-- Apply one operation to the cache state. -/
def applyOp (s : CacheState) : Op → CacheState
  | .reg id ld => regGuard s id ld
  | .getOp id => (getF s id).2
  | .fetchOnly url => (fetchP s url).2

/-- Run a sequence of operations. -/
def runOps (s : CacheState) (ops : List Op) : CacheState :=
  ops.foldl applyOp s

/-- Number of network requests issued so far for a given URL. -/
def countIssued (s : CacheState) (u : String) : Nat :=
  s.issued.countP (fun r => r.url = u)

/-- The `Promise.all` at the end of `entries()`: every stored file promise
read together with its identity; the first rejection in the list rejects the
whole thing. -/
def allPairs (env : Env) : List (String × Nat) →
    Except String (List (String × String))
  | [] => .ok []
  | (id, t) :: rest =>
      match env t with
      | .error e => .error e
      | .ok v => (allPairs env rest).map (fun ps => (id, v) :: ps)

/-- The waiting loop of `AsyncFileCache.entries` (`materializeAll`):
observe `filesPromise`, await it — during the await the next batch of
synchronous operations runs —, rethrow its rejection, and return the
`Promise.all` over `this.files` once the observed barrier is unchanged
after an await. `phases` lists, per await, the operations that run during
it; `none` means the fuel ran out before the barrier stabilized. -/
def entriesLoop (env : Env) :
    Nat → CacheState → List (List Op) →
    Option (Except String (List (String × String)) × CacheState)
  | 0, _, _ => none
  | fuel + 1, s, phases =>
      let observed := s.filesPromise
      let s2 := runOps s (phases.headD [])
      match barrierResultE env observed with
      | .error e => some (.error e, s2)
      | .ok _ =>
          if s2.filesPromise = observed then some (allPairs env s2.files, s2)
          else entriesLoop env fuel s2 phases.tail

/-- A cheerio element as the plugin uses it: a mutable `href`/`src`
attribute holder. -/
structure Elem where
  href : Option String
  src : Option String
deriving DecidableEq, Repr

/-- `AsyncFileCache.fetchStyles`: read `href`; when it is an external URL,
map it to its file identity, write that identity back into the `href`
attribute immediately, and only then register the (lazy, not yet started)
stylesheet producer. The `toFilePath` error case is the exception thrown
before the attribute assignment. -/
def fetchStylesM (s : CacheState) (el : Elem) :
    Except String (CacheState × Elem) :=
  match el.href with
  | none => .ok (s, el)
  | some cssUrl =>
      if isExternalUrl cssUrl then
        match toFilePathStr cssUrl with
        | .error e => .error e
        | .ok file =>
            .ok (regGuard s file (Loader.styles cssUrl),
              { el with href := some file })
      else .ok (s, el)

/-- `AsyncFileCache.fetchScript`: same shape as `fetchStyles` on the `src`
attribute, registering a plain text producer. -/
def fetchScriptM (s : CacheState) (el : Elem) :
    Except String (CacheState × Elem) :=
  match el.src with
  | none => .ok (s, el)
  | some scriptUrl =>
      if isExternalUrl scriptUrl then
        match toFilePathStr scriptUrl with
        | .error e => .error e
        | .ok file =>
            .ok (regGuard s file (Loader.text scriptUrl),
              { el with src := some file })
      else .ok (s, el)

/-!
The module-level fetch memoizer of the second `plugin.ts` revision: two
separate caches, `textCache` and `bufferCache`, each memoizing the full
derived body promise per URL and kind.
-/

/-- State of `plugin.ts`'s module-level `textCache`/`bufferCache` pair. -/
structure PluginCaches where
  textCache : List (String × Nat)
  bufferCache : List (String × Nat)
  nextTid : Nat
  issued : List (String × BodyKind)
deriving DecidableEq, Repr

/-- Freshly loaded module state. -/
def pInit : PluginCaches :=
  { textCache := [], bufferCache := [], nextTid := 0, issued := [] }

/-- `plugin.ts` `fetchText`:
`textCache[url] || (textCache[url] = fetch(url).then(res => res.text()))`. -/
def pFetchText (s : PluginCaches) (url : String) : Nat × PluginCaches :=
  match lookupA s.textCache url with
  | some t => (t, s)
  | none =>
      (s.nextTid,
        { s with
          textCache := insertA s.textCache url s.nextTid,
          nextTid := s.nextTid + 1,
          issued := (url, BodyKind.text) :: s.issued })

/-- `plugin.ts` `fetchBuffer`: the same memoization over `bufferCache`. -/
def pFetchBuffer (s : PluginCaches) (url : String) : Nat × PluginCaches :=
  match lookupA s.bufferCache url with
  | some t => (t, s)
  | none =>
      (s.nextTid,
        { s with
          bufferCache := insertA s.bufferCache url s.nextTid,
          nextTid := s.nextTid + 1,
          issued := (url, BodyKind.buffer) :: s.issued })

/-- Number of network requests the plugin memoizer has issued for a given
URL and body kind. -/
def pCount (s : PluginCaches) (u : String) (k : BodyKind) : Nat :=
  s.issued.countP (fun r => decide (r = (u, k)))

/-- One call into the plugin's fetch memoizer. -/
inductive POp : Type where
  | ftext (url : String) : POp
  | fbuf (url : String) : POp
deriving DecidableEq, Repr

/-- Apply one plugin fetch call. -/
def applyPOp (s : PluginCaches) : POp → PluginCaches
  | .ftext u => (pFetchText s u).2
  | .fbuf u => (pFetchBuffer s u).2

/-- Run a sequence of plugin fetch calls. -/
def runPOps (s : PluginCaches) (ops : List POp) : PluginCaches :=
  ops.foldl applyPOp s

/-!
The CSS Reference Rewriter: `replaceCssUrls` with its regex
`/url\(\s*('[^']+'|"[^"]+"|[^'")]+)\s*\)/g` and the `MagicString`
offset-addressed splicing.
-/

/-- Characters an unquoted CSS url token may contain: `[^'")]`. -/
def isBare (c : Char) : Bool := c ≠ '\'' && c ≠ '"' && c ≠ ')'

/-- A match of the CSS url regex: start offset of `url(`, total match
length (`match[0].length`) and the captured token (`match[1]`, quotes
included). -/
structure CssMatch where
  index : Nat
  len : Nat
  token : String
deriving DecidableEq, Repr

/-- Attempt `url\(\s*('[^']+'|"[^"]+"|[^'")]+)\s*\)` at the head of the
suffix, returning the overall match length and the captured token. The JS
engine's greedy/backtracking search collapses to these deterministic cases:
a quoted token must be closed and followed by `\s*\)`; an unquoted token is
the maximal run of `[^'")]` (so it absorbs interior whitespace) and must
stop at `)`; when `)` directly follows the leading whitespace, backtracking
yields the last whitespace character as the token. -/
def tryMatch (cs : List Char) : Option (Nat × String) :=
  if cs.take 4 = ['u', 'r', 'l', '('] then
    let rest := cs.drop 4
    let ws := rest.takeWhile isJsWs
    let w := ws.length
    let afterWs := rest.drop w
    match afterWs with
    | [] => none
    | c :: cs2 =>
        if c = '\'' ∨ c = '"' then
          match cs2.findIdx? (fun d => d = c) with
          | none => none
          | some k =>
              if k = 0 then none
              else
                let afterQ := cs2.drop (k + 1)
                let w2 := (afterQ.takeWhile isJsWs).length
                match afterQ.drop w2 with
                | ')' :: _ =>
                    some (4 + w + (k + 2) + w2 + 1,
                      String.mk (afterWs.take (k + 2)))
                | _ => none
        else if c = ')' then
          if w = 0 then none
          else some (4 + w + 1, String.mk [ws.getLastD ' '])
        else
          let tokenCs := afterWs.takeWhile isBare
          match afterWs.drop tokenCs.length with
          | ')' :: _ => some (4 + w + tokenCs.length + 1, String.mk tokenCs)
          | _ => none
  else none

/-- Scan the whole stylesheet: successive non-overlapping matches of the
regex, advancing one character on failed attempts and past the whole match
on success (mirroring repeated `cssUrlRE.exec` with `lastIndex`). `pos` is
the absolute offset of the suffix head; fuelled recursion. -/
def scanCssF : Nat → List Char → Nat → List CssMatch
  | 0, _, _ => []
  | _ + 1, [], _ => []
  | fuel + 1, c :: rest, pos =>
      match tryMatch (c :: rest) with
      | some (mlen, tok) =>
          { index := pos, len := mlen, token := tok } ::
            scanCssF fuel ((c :: rest).drop mlen) (pos + mlen)
      | none => scanCssF fuel rest (pos + 1)

/-- All matches of the CSS url regex in the text, in order. -/
def cssMatches (text : String) : List CssMatch :=
  scanCssF (text.data.length + 1) text.data 0

/-- `url.slice(1, -1)`, applied when the token starts with a quote
(the `/^['"]/` test). -/
def stripQuotes (tok : String) : String :=
  match tok.data with
  | c :: rest => if c = '\'' ∨ c = '"' then String.mk rest.dropLast else tok
  | [] => tok

/-- The regex `/^\.\.?\//`: a `./` or `../` prefix. -/
def isRelDot (s : String) : Bool :=
  "./".data.isPrefixOf s.data || "../".data.isPrefixOf s.data

/-- Offset just past the last `/` of the list (0 when there is none):
`parentUrl.lastIndexOf('/') + 1`. -/
def lastSlashCut (cs : List Char) : Nat :=
  cs.length - (cs.reverse.takeWhile (fun c => c ≠ '/')).length

/-- `parentUrl.slice(0, parentUrl.lastIndexOf('/') + 1)`: the parent URL's
directory prefix, up to and including the final slash. -/
def parentDir (s : String) : String :=
  String.mk (s.data.take (lastSlashCut s.data))

/-- Drop the last path segment of a directory ending in `/`, keeping the
trailing slash; `none` when there is no enclosing segment left. -/
def dropLastSeg (dir : List Char) : Option (List Char) :=
  let d := dir.dropLast
  if d.contains '/' then
    some ((d.reverse.dropWhile (fun c => c ≠ '/')).reverse)
  else none

/-- Resolution loop for `./` and `../` prefixes against a directory. -/
def relGo : Nat → List Char → List Char → Option (List Char)
  | 0, _, _ => none
  | fuel + 1, dir, url =>
      if "../".data.isPrefixOf url then
        (dropLastSeg dir).bind (fun d => relGo fuel d (url.drop 3))
      else if "./".data.isPrefixOf url then relGo fuel dir (url.drop 2)
      else some (dir ++ url)

/-- Models the `@cush/relative` dependency `relative(parentUrl, url)`:
standard relative-URL resolution of the `./`/`../` prefixes of `url`
against `parentUrl`'s directory. A falsy result (resolution failure) is
`none`, triggering the `|| url` fallback at the call site. -/
def relativeResolve (parentUrl url : String) : Option String :=
  match relGo (url.data.length + 1) (parentDir parentUrl).data url.data with
  | some cs => if cs.isEmpty then none else some (String.mk cs)
  | none => none

/-- The per-token URL resolution of `replaceCssUrls`: strip quotes; resolve
`./`/`../` tokens with `relative` (keeping the token on a falsy result);
prefix the parent directory onto any other non-external token; leave the
rest unchanged. -/
def resolveCssUrl (parentUrl tok : String) : String :=
  let url := stripQuotes tok
  if isRelDot url then (relativeResolve parentUrl url).getD url
  else if !(isExternalUrl url) then parentDir parentUrl ++ url
  else url

/-- Lower-case hex digit. -/
def hexDigit (n : Nat) : Char :=
  if n < 10 then Char.ofNat ('0'.toNat + n) else Char.ofNat ('a'.toNat + n - 10)

/-- Escaping of one character inside a JSON string literal. -/
def jsonEscape (c : Char) : List Char :=
  if c = '"' then ['\\', '"']
  else if c = '\\' then ['\\', '\\']
  else if c = '\x08' then ['\\', 'b']
  else if c = '\t' then ['\\', 't']
  else if c = '\n' then ['\\', 'n']
  else if c = '\x0c' then ['\\', 'f']
  else if c = '\r' then ['\\', 'r']
  else if c.toNat < 32 then
    ['\\', 'u', '0', '0', hexDigit (c.toNat / 16), hexDigit (c.toNat % 16)]
  else [c]

/-- `JSON.stringify` on a string: a double-quoted, escaped literal. -/
def jsonStringify (s : String) : String :=
  String.mk ('"' :: (s.data.flatMap jsonEscape ++ ['"']))

/-- One recorded `MagicString.overwrite`: replace the original-coordinate
span `[start, stop)` with `repl`. -/
structure SpanEdit where
  start : Nat
  stop : Nat
  repl : List Char
deriving DecidableEq, Repr

/-- Apply ordered, disjoint edits addressed by original offsets; `pos` is
the absolute offset of the head of `cs`. This is the `MagicString.toString`
denotation of the overwrite calls, independent of the completion order of
the asynchronous replacer callbacks. -/
def splice : List Char → Nat → List SpanEdit → List Char
  | cs, _, [] => cs
  | cs, pos, e :: es =>
      cs.take (e.start - pos) ++ e.repl ++
        splice (cs.drop (e.stop - pos)) e.stop es

/-- Output offset corresponding to an original offset `i` that lies outside
every edit span. -/
def shiftPos : List SpanEdit → Nat → Nat → Nat
  | [], pos, i => i - pos
  | e :: es, pos, i =>
      if i < e.start then i - pos
      else (e.start - pos) + e.repl.length + shiftPos es e.stop i

/-- The edits `replaceCssUrls` records: for every regex match whose
resolved URL is classified external, overwrite the span from just after
`url(` (`match.index + 4`) to just before the final `)`
(`match.index + match[0].length - 1`) with the JSON-stringified replacer
result. -/
def cssEdits (text parentUrl : String) (replacer : String → String) :
    List SpanEdit :=
  (cssMatches text).filterMap (fun m =>
    let url := resolveCssUrl parentUrl m.token
    if isExternalUrl url then
      some { start := m.index + 4, stop := m.index + m.len - 1,
             repl := (jsonStringify (replacer url)).data }
    else none)

/-- `replaceCssUrls` of `AsyncFileCache.ts`: scan, resolve, classify and
splice the quoted replacements into the text at the original offsets. -/
def replaceCssUrls (text parentUrl : String) (replacer : String → String) :
    String :=
  String.mk (splice text.data 0 (cssEdits text parentUrl replacer))

/-- Well-formedness of a recorded edit list: every span lies in
`[pos + 4, n)` and is nonempty, and successive spans are separated by at
least the closing `)` of one match and the `url(` of the next. -/
def editsOkB (n : Nat) : Nat → List SpanEdit → Bool
  | _, [] => true
  | pos, e :: es =>
      decide (pos + 4 ≤ e.start) && decide (e.start < e.stop) &&
        decide (e.stop < n) && editsOkB n (e.stop + 1) es

/-- The offset `i` lies outside every recorded edit span. -/
def outsideB (i : Nat) (edits : List SpanEdit) : Bool :=
  edits.all (fun e => decide (i < e.start) || decide (e.stop ≤ i))

/-! Helper lemmas about the association-list primitives. -/

theorem lookupA_insertA_self {α : Type} (l : List (String × α)) (k : String)
    (v : α) : lookupA (insertA l k v) k = some v := by
  induction l with
  | nil => simp [insertA, lookupA]
  | cons p rest ih =>
      obtain ⟨k1, v1⟩ := p
      by_cases h : k1 = k <;> simp [insertA, lookupA, h, ih]

theorem lookupA_insertA_ne {α : Type} (l : List (String × α)) (k k' : String)
    (v : α) (h : k ≠ k') : lookupA (insertA l k v) k' = lookupA l k' := by
  induction l with
  | nil => simp [insertA, lookupA, h]
  | cons p rest ih =>
      obtain ⟨k1, v1⟩ := p
      by_cases hp : k1 = k
      · subst hp
        simp [insertA, lookupA, Ne.symm h, h]
      · simp [insertA, lookupA, hp, ih]

theorem lookupA_mem {α : Type} {l : List (String × α)} {k : String} {v : α}
    (h : lookupA l k = some v) : (k, v) ∈ l := by
  induction l with
  | nil => simp [lookupA] at h
  | cons p rest ih =>
      obtain ⟨k1, v1⟩ := p
      by_cases hp : k1 = k
      · simp [lookupA, hp] at h
        subst hp
        subst h
        exact List.mem_cons_self _ _
      · simp [lookupA, hp] at h
        exact List.mem_cons_of_mem _ (ih h)

theorem mem_insertA {α : Type} {l : List (String × α)} {k : String} {v : α}
    {p : String × α} (h : p ∈ insertA l k v) : p = (k, v) ∨ p ∈ l := by
  induction l with
  | nil => simpa [insertA] using h
  | cons q rest ih =>
      obtain ⟨k1, v1⟩ := q
      by_cases hq : k1 = k
      · subst hq
        simp only [insertA, if_pos rfl] at h
        rcases List.mem_cons.mp h with h' | h'
        · left
          exact h'
        · right
          exact List.mem_cons_of_mem _ h'
      · simp only [insertA, if_neg hq] at h
        rcases List.mem_cons.mp h with h' | h'
        · right
          exact h' ▸ List.mem_cons_self _ _
        · rcases ih h' with h'' | h''
          · left
            exact h''
          · right
            exact List.mem_cons_of_mem _ h''

theorem lookupA_removeA_ne {α : Type} (l : List (String × α)) (k k' : String)
    (h : k ≠ k') : lookupA (removeA l k) k' = lookupA l k' := by
  induction l with
  | nil => simp [removeA]
  | cons p rest ih =>
      obtain ⟨k1, v1⟩ := p
      by_cases hp : k1 = k
      · subst hp
        simp [removeA, lookupA, Ne.symm h, h, ih]
      · simp [removeA, lookupA, hp, ih]

theorem runOps_append (s : CacheState) (a b : List Op) :
    runOps (runOps s a) b = runOps s (a ++ b) := by
  simp [runOps, List.foldl_append]

/-! Request accounting: at most one network request per URL, request
handles immutable once stored. -/

theorem fetchP_hit {s : CacheState} {u : String} {t : Nat}
    (h : lookupA s.requests u = some t) : fetchP s u = (t, s) := by
  simp [fetchP, h]

theorem fetchP_lookup_self (s : CacheState) (u : String) :
    lookupA (fetchP s u).2.requests u = some (fetchP s u).1 := by
  cases hl : lookupA s.requests u with
  | some t => simp [fetchP, hl]
  | none => simp [fetchP, hl, lookupA_insertA_self]

theorem fetchP_requests_stable {s : CacheState} {u : String} {t : Nat}
    (v : String) (h : lookupA s.requests u = some t) :
    lookupA (fetchP s v).2.requests u = some t := by
  cases hl : lookupA s.requests v with
  | some t' => simp [fetchP, hl, h]
  | none =>
      have hne : v ≠ u := by
        intro he
        rw [he, h] at hl
        cases hl
      simp [fetchP, hl, lookupA_insertA_ne _ _ _ _ hne, h]

theorem regGuard_requests (s : CacheState) (id : String) (ld : Loader) :
    (regGuard s id ld).requests = s.requests := by
  unfold regGuard
  split
  · rfl
  · split <;> rfl

theorem regGuard_issued (s : CacheState) (id : String) (ld : Loader) :
    (regGuard s id ld).issued = s.issued := by
  unfold regGuard
  split
  · rfl
  · split <;> rfl

theorem getF_requests (s : CacheState) (id : String) :
    (getF s id).2.requests = (match lookupA s.files id with
      | some _ => s.requests
      | none => match lookupA s.loaders id with
        | some ld => (fetchP s (loaderUrl ld)).2.requests
        | none => s.requests) := by
  unfold getF
  cases lookupA s.files id with
  | some t => rfl
  | none =>
      cases lookupA s.loaders id with
      | some ld => simp [runLoader, setF]
      | none => rfl

theorem getF_issued (s : CacheState) (id : String) :
    (getF s id).2.issued = (match lookupA s.files id with
      | some _ => s.issued
      | none => match lookupA s.loaders id with
        | some ld => (fetchP s (loaderUrl ld)).2.issued
        | none => s.issued) := by
  unfold getF
  cases lookupA s.files id with
  | some t => rfl
  | none =>
      cases lookupA s.loaders id with
      | some ld => simp [runLoader, setF]
      | none => rfl

theorem applyOp_requests_stable {s : CacheState} {u : String} {t : Nat}
    (op : Op) (h : lookupA s.requests u = some t) :
    lookupA (applyOp s op).requests u = some t := by
  cases op with
  | reg id ld => rw [applyOp, regGuard_requests]; exact h
  | getOp id =>
      rw [applyOp, getF_requests]
      cases lookupA s.files id with
      | some t' => exact h
      | none =>
          cases lookupA s.loaders id with
          | some ld => exact fetchP_requests_stable _ h
          | none => exact h
  | fetchOnly v => exact fetchP_requests_stable _ h

theorem runOps_requests_stable {s : CacheState} {u : String} {t : Nat}
    (ops : List Op) (h : lookupA s.requests u = some t) :
    lookupA (runOps s ops).requests u = some t := by
  induction ops generalizing s with
  | nil => exact h
  | cons op rest ih =>
      rw [runOps, List.foldl_cons]
      exact ih (applyOp_requests_stable op h)

theorem fetchP_count (s : CacheState) (u v : String)
    (h : countIssued s u = if (lookupA s.requests u).isSome then 1 else 0) :
    countIssued (fetchP s v).2 u
      = if (lookupA (fetchP s v).2.requests u).isSome then 1 else 0 := by
  cases hl : lookupA s.requests v with
  | some t => simpa [fetchP, hl] using h
  | none =>
      by_cases he : v = u
      · subst he
        rw [hl] at h
        simp [fetchP, hl, countIssued, List.countP_cons, lookupA_insertA_self,
          countIssued] at h ⊢
        simpa [countIssued] using h
      · have hne : v ≠ u := he
        simp [fetchP, hl, countIssued, List.countP_cons,
          lookupA_insertA_ne _ _ _ _ hne, hne] at h ⊢
        simpa [countIssued] using h

theorem applyOp_count (s : CacheState) (u : String) (op : Op)
    (h : countIssued s u = if (lookupA s.requests u).isSome then 1 else 0) :
    countIssued (applyOp s op) u
      = if (lookupA (applyOp s op).requests u).isSome then 1 else 0 := by
  cases op with
  | reg id ld =>
      rw [applyOp, countIssued, regGuard_issued, regGuard_requests]
      exact h
  | getOp id =>
      rw [applyOp, countIssued, getF_issued, getF_requests]
      cases lookupA s.files id with
      | some t => exact h
      | none =>
          cases lookupA s.loaders id with
          | some ld => exact fetchP_count s u (loaderUrl ld) h
          | none => exact h
  | fetchOnly v => exact fetchP_count s u v h

theorem runOps_count (ops : List Op) (s : CacheState) (u : String)
    (h : countIssued s u = if (lookupA s.requests u).isSome then 1 else 0) :
    countIssued (runOps s ops) u
      = if (lookupA (runOps s ops).requests u).isSome then 1 else 0 := by
  induction ops generalizing s with
  | nil => exact h
  | cons op rest ih =>
      rw [runOps, List.foldl_cons]
      exact ih _ (applyOp_count s u op h)

/-- C1: within one run, the Fetch Memoizer issues at most one network
request per byte-identical URL string: the request count for a URL is
exactly one when (and only when) the URL has an entry in the request map;
a stored request handle survives every later operation unchanged and keeps
the count at one; and a repeated call returns exactly the stored shared
handle, issuing nothing and adding no map entry. -/
theorem fetch_memoizer_dedup (ops more : List Op) (u : String) (t : Nat) :
    (countIssued (runOps initState ops) u
      = if (lookupA (runOps initState ops).requests u).isSome then 1 else 0) ∧
    (lookupA (runOps initState ops).requests u = some t →
      lookupA (runOps (runOps initState ops) more).requests u = some t ∧
      countIssued (runOps (runOps initState ops) more) u = 1) ∧
    (lookupA (runOps initState ops).requests u = some t →
      fetchP (runOps initState ops) u = (t, runOps initState ops)) := by
  have hinv : countIssued (runOps initState ops) u
      = if (lookupA (runOps initState ops).requests u).isSome then 1 else 0 :=
    runOps_count ops initState u (by simp [initState, countIssued, lookupA])
  refine ⟨hinv, fun h => ⟨runOps_requests_stable more h, ?_⟩,
    fun h => fetchP_hit h⟩
  have hinv2 := runOps_count more (runOps initState ops) u hinv
  rw [runOps_requests_stable more h] at hinv2
  simpa using hinv2

/-- Witness for C1: two calls for the same URL in one run issue exactly one
request, the map holds the handle created by the first call, and a repeated
`fetch` returns it untouched. -/
theorem fetch_memoizer_dedup_witness :
    countIssued (runOps initState
      [Op.fetchOnly "https://example.com/app.css",
       Op.fetchOnly "https://example.com/app.css"]) "https://example.com/app.css" = 1 ∧
    fetchP (runOps initState
      [Op.fetchOnly "https://example.com/app.css",
       Op.fetchOnly "https://example.com/app.css"]) "https://example.com/app.css"
      = (0, runOps initState
        [Op.fetchOnly "https://example.com/app.css",
         Op.fetchOnly "https://example.com/app.css"]) := by
  refine ⟨?_, ?_⟩
  · have h := (fetch_memoizer_dedup
      [Op.fetchOnly "https://example.com/app.css",
       Op.fetchOnly "https://example.com/app.css"] []
      "https://example.com/app.css" 0).2.1 (by decide)
    simpa [runOps] using h.2
  · exact (fetch_memoizer_dedup
      [Op.fetchOnly "https://example.com/app.css",
       Op.fetchOnly "https://example.com/app.css"] []
      "https://example.com/app.css" 0).2.2 (by decide)

/-! No custom headers, no retry: every request is a bare `fetch(url)`. -/

theorem fetchP_issued_plain {s : CacheState} (v : String)
    (h : ∀ r ∈ s.issued, r.headers = []) :
    ∀ r ∈ (fetchP s v).2.issued, r.headers = [] := by
  cases hl : lookupA s.requests v with
  | some t => simpa [fetchP, hl] using h
  | none =>
      intro r hr
      simp [fetchP, hl] at hr
      rcases hr with hr | hr
      · rw [hr]
      · exact h r hr

theorem applyOp_issued_plain {s : CacheState} (op : Op)
    (h : ∀ r ∈ s.issued, r.headers = []) :
    ∀ r ∈ (applyOp s op).issued, r.headers = [] := by
  cases op with
  | reg id ld => rw [applyOp]; intro r hr; rw [regGuard_issued] at hr; exact h r hr
  | getOp id =>
      intro r hr
      rw [applyOp, getF_issued] at hr
      revert hr
      cases lookupA s.files id with
      | some t => exact h r
      | none =>
          cases lookupA s.loaders id with
          | some ld => exact fetchP_issued_plain _ h r
          | none => exact h r
  | fetchOnly v => exact fetchP_issued_plain v h

theorem runOps_issued_plain (ops : List Op) {s : CacheState}
    (h : ∀ r ∈ s.issued, r.headers = []) :
    ∀ r ∈ (runOps s ops).issued, r.headers = [] := by
  induction ops generalizing s with
  | nil => exact h
  | cons op rest ih =>
      rw [runOps, List.foldl_cons]
      exact ih (applyOp_issued_plain op h)

/-- C7 counterexample: `AsyncFileCache.fetch` issues the bare `fetch(url)`
with an empty header list for a concrete URL — contradicting the claim that
every network request carries a custom browser-identifying request header
(there is likewise no retry wrapper in this code path: the caller receives
the single stored request handle). -/
theorem fetch_no_custom_header_cex :
    (fetchP initState "https://example.com/app.css").2.issued
      = [{ url := "https://example.com/app.css", headers := [] }] ∧
    ¬ (∀ r ∈ (fetchP initState "https://example.com/app.css").2.issued,
        r.headers ≠ []) := by
  refine ⟨rfl, fun h =>
    h { url := "https://example.com/app.css", headers := [] } ?_ rfl⟩
  decide

/-- C7 amended: every request the Fetch Memoizer issues is a bare
`fetch(url)` carrying no custom headers and wrapped in no retry logic; and
because all callers of a URL share the single stored request handle, any
failure — a connection reset included — is observed identically by every
caller rather than being retried invisibly. -/
theorem fetch_plain_request_shared_outcome (ops : List Op) (s : CacheState)
    (u : String) (env : Env) :
    (∀ r ∈ (runOps initState ops).issued, r.headers = []) ∧
    (fetchP (fetchP s u).2 u).1 = (fetchP s u).1 ∧
    env ((fetchP (fetchP s u).2 u).1) = env ((fetchP s u).1) := by
  have hshared : (fetchP (fetchP s u).2 u).1 = (fetchP s u).1 := by
    rw [fetchP_hit (fetchP_lookup_self s u)]
  exact ⟨runOps_issued_plain ops (by simp [initState]), hshared,
    congrArg env hshared⟩

/-- Witness for the amended C7: a concrete issued request has no headers,
and the repeated call for that URL observes the first call's handle. -/
theorem fetch_plain_request_shared_outcome_witness :
    ({ url := "https://example.com/x.css", headers := [] } : NetRequest).headers
      = ([] : List (String × String)) ∧
    (fetchP (fetchP initState "https://example.com/x.css").2
        "https://example.com/x.css").1
      = (fetchP initState "https://example.com/x.css").1 :=
  ⟨(fetch_plain_request_shared_outcome [Op.fetchOnly "https://example.com/x.css"]
      initState "https://example.com/x.css" (fun _ => Except.ok "")).1 _
      (by decide),
    (fetch_plain_request_shared_outcome [] initState "https://example.com/x.css"
      (fun _ => Except.ok "")).2.1⟩

/-! The plugin's two body-kind caches, and their absence in
`AsyncFileCache`. -/

theorem pFetchText_bufferCache (s : PluginCaches) (u : String) :
    (pFetchText s u).2.bufferCache = s.bufferCache := by
  cases hl : lookupA s.textCache u <;> simp [pFetchText, hl]

theorem pFetchBuffer_textCache (s : PluginCaches) (u : String) :
    (pFetchBuffer s u).2.textCache = s.textCache := by
  cases hl : lookupA s.bufferCache u <;> simp [pFetchBuffer, hl]

theorem pInv_step (s : PluginCaches) (op : POp)
    (h1 : ∀ p ∈ s.textCache, p.2 < s.nextTid)
    (h2 : ∀ p ∈ s.bufferCache, p.2 < s.nextTid)
    (h3 : ∀ p ∈ s.textCache, ∀ q ∈ s.bufferCache, p.2 ≠ q.2) :
    (∀ p ∈ (applyPOp s op).textCache, p.2 < (applyPOp s op).nextTid) ∧
    (∀ p ∈ (applyPOp s op).bufferCache, p.2 < (applyPOp s op).nextTid) ∧
    (∀ p ∈ (applyPOp s op).textCache, ∀ q ∈ (applyPOp s op).bufferCache,
      p.2 ≠ q.2) := by
  cases op with
  | ftext u =>
      cases hl : lookupA s.textCache u with
      | some t => exact ⟨by simpa [applyPOp, pFetchText, hl] using h1,
          by simpa [applyPOp, pFetchText, hl] using h2,
          by simpa [applyPOp, pFetchText, hl] using h3⟩
      | none =>
          refine ⟨?_, ?_, ?_⟩ <;> simp only [applyPOp, pFetchText, hl]
          · intro p hp
            rcases mem_insertA hp with h' | h'
            · simp [h']
            · exact Nat.lt_succ_of_lt (h1 p h')
          · intro p hp
            exact Nat.lt_succ_of_lt (h2 p hp)
          · intro p hp q hq
            rcases mem_insertA hp with h' | h'
            · rw [h']
              exact fun he => absurd (he ▸ h2 q hq) (by simp)
            · exact h3 p h' q hq
  | fbuf u =>
      cases hl : lookupA s.bufferCache u with
      | some t => exact ⟨by simpa [applyPOp, pFetchBuffer, hl] using h1,
          by simpa [applyPOp, pFetchBuffer, hl] using h2,
          by simpa [applyPOp, pFetchBuffer, hl] using h3⟩
      | none =>
          refine ⟨?_, ?_, ?_⟩ <;> simp only [applyPOp, pFetchBuffer, hl]
          · intro p hp
            exact Nat.lt_succ_of_lt (h1 p hp)
          · intro p hp
            rcases mem_insertA hp with h' | h'
            · simp [h']
            · exact Nat.lt_succ_of_lt (h2 p h')
          · intro p hp q hq
            rcases mem_insertA hq with h' | h'
            · rw [h']
              exact fun he => absurd (he ▸ h1 p hp) (by simp)
            · exact h3 p hp q h'

theorem pInv_runPOps (ops : List POp) :
    (∀ p ∈ (runPOps pInit ops).textCache, p.2 < (runPOps pInit ops).nextTid) ∧
    (∀ p ∈ (runPOps pInit ops).bufferCache, p.2 < (runPOps pInit ops).nextTid) ∧
    (∀ p ∈ (runPOps pInit ops).textCache,
      ∀ q ∈ (runPOps pInit ops).bufferCache, p.2 ≠ q.2) := by
  suffices h : ∀ s, (∀ p ∈ s.textCache, p.2 < s.nextTid) →
      (∀ p ∈ s.bufferCache, p.2 < s.nextTid) →
      (∀ p ∈ s.textCache, ∀ q ∈ s.bufferCache, p.2 ≠ q.2) →
      (∀ p ∈ (runPOps s ops).textCache, p.2 < (runPOps s ops).nextTid) ∧
      (∀ p ∈ (runPOps s ops).bufferCache, p.2 < (runPOps s ops).nextTid) ∧
      (∀ p ∈ (runPOps s ops).textCache,
        ∀ q ∈ (runPOps s ops).bufferCache, p.2 ≠ q.2) by
    exact h pInit (by simp [pInit]) (by simp [pInit]) (by simp [pInit])
  induction ops with
  | nil => exact fun s h1 h2 h3 => ⟨h1, h2, h3⟩
  | cons op rest ih =>
      intro s h1 h2 h3
      obtain ⟨g1, g2, g3⟩ := pInv_step s op h1 h2 h3
      exact ih _ g1 g2 g3

theorem pFetchText_count (s : PluginCaches) (u v : String)
    (h : pCount s u BodyKind.text
      = if (lookupA s.textCache u).isSome then 1 else 0) :
    pCount (pFetchText s v).2 u BodyKind.text
      = if (lookupA (pFetchText s v).2.textCache u).isSome then 1 else 0 := by
  cases hl : lookupA s.textCache v with
  | some t => simpa [pFetchText, hl] using h
  | none =>
      by_cases he : v = u
      · subst he
        rw [hl] at h
        simp only [Option.isSome_none, Bool.false_eq_true, if_false] at h
        simp [pFetchText, hl, pCount, List.countP_cons, lookupA_insertA_self,
          pCount] at h ⊢
        simpa [pCount] using h
      · simp [pFetchText, hl, pCount, List.countP_cons,
          lookupA_insertA_ne _ _ _ _ he, he] at h ⊢
        simpa [pCount] using h

theorem pFetchBuffer_count (s : PluginCaches) (u v : String)
    (h : pCount s u BodyKind.buffer
      = if (lookupA s.bufferCache u).isSome then 1 else 0) :
    pCount (pFetchBuffer s v).2 u BodyKind.buffer
      = if (lookupA (pFetchBuffer s v).2.bufferCache u).isSome then 1 else 0 := by
  cases hl : lookupA s.bufferCache v with
  | some t => simpa [pFetchBuffer, hl] using h
  | none =>
      by_cases he : v = u
      · subst he
        rw [hl] at h
        simp only [Option.isSome_none, Bool.false_eq_true, if_false] at h
        simp [pFetchBuffer, hl, pCount, List.countP_cons, lookupA_insertA_self,
          pCount] at h ⊢
        simpa [pCount] using h
      · simp [pFetchBuffer, hl, pCount, List.countP_cons,
          lookupA_insertA_ne _ _ _ _ he, he] at h ⊢
        simpa [pCount] using h

theorem pFetchText_count_buffer (s : PluginCaches) (u v : String) :
    pCount (pFetchText s v).2 u BodyKind.buffer = pCount s u BodyKind.buffer := by
  cases hl : lookupA s.textCache v with
  | some t => simp [pFetchText, hl]
  | none => simp [pFetchText, hl, pCount, List.countP_cons]

theorem pFetchBuffer_count_text (s : PluginCaches) (u v : String) :
    pCount (pFetchBuffer s v).2 u BodyKind.text = pCount s u BodyKind.text := by
  cases hl : lookupA s.bufferCache v with
  | some t => simp [pFetchBuffer, hl]
  | none => simp [pFetchBuffer, hl, pCount, List.countP_cons]

theorem pCount_runPOps (ops : List POp) (s : PluginCaches) (u : String)
    (ht : pCount s u BodyKind.text
      = if (lookupA s.textCache u).isSome then 1 else 0)
    (hb : pCount s u BodyKind.buffer
      = if (lookupA s.bufferCache u).isSome then 1 else 0) :
    (pCount (runPOps s ops) u BodyKind.text
      = if (lookupA (runPOps s ops).textCache u).isSome then 1 else 0) ∧
    (pCount (runPOps s ops) u BodyKind.buffer
      = if (lookupA (runPOps s ops).bufferCache u).isSome then 1 else 0) := by
  induction ops generalizing s with
  | nil => exact ⟨ht, hb⟩
  | cons op rest ih =>
      rw [runPOps, List.foldl_cons]
      cases op with
      | ftext v =>
          exact ih _ (pFetchText_count s u v ht)
            (by rw [show applyPOp s (POp.ftext v) = (pFetchText s v).2 from rfl,
              pFetchText_count_buffer, pFetchText_bufferCache]; exact hb)
      | fbuf v =>
          exact ih _
            (by rw [show applyPOp s (POp.fbuf v) = (pFetchBuffer s v).2 from rfl,
              pFetchBuffer_count_text, pFetchBuffer_textCache]; exact ht)
            (pFetchBuffer_count s u v hb)

/-- C6 counterexample: in `AsyncFileCache.ts` the two body kinds do NOT get
independent cache keys. After `fetchText(u)` followed by `fetchBuffer(u)`
from a fresh cache, the single `requests` map holds exactly one shared
entry for `u`, the buffer read receives the very response handle stored by
the text read, and only one request was issued — there are no two disjoint
caches in that class. -/
theorem kind_caches_collide_cex :
    ((asyncFetchBuffer (asyncFetchText initState "https://example.com/f.woff2").2
        "https://example.com/f.woff2").1.2
      = (asyncFetchText initState "https://example.com/f.woff2").1.2) ∧
    ((asyncFetchBuffer (asyncFetchText initState "https://example.com/f.woff2").2
        "https://example.com/f.woff2").2.requests
      = [("https://example.com/f.woff2", 0)]) ∧
    countIssued (asyncFetchBuffer (asyncFetchText initState
        "https://example.com/f.woff2").2 "https://example.com/f.woff2").2
      "https://example.com/f.woff2" = 1 := by
  exact ⟨rfl, rfl, rfl⟩

/-- C6 amended: the two disjoint per-kind caches exist in `plugin.ts`
(`textCache` and `bufferCache`): `fetchText` never touches the buffer
cache and vice versa, handles stored for the same URL under the two kinds
are always distinct, and each kind issues at most one request per URL. In
`AsyncFileCache.ts`, by contrast, both kinds share the one `requests` map
(the counterexample above). -/
theorem plugin_kind_caches_disjoint (s : PluginCaches) (ops : List POp)
    (u v : String) (t1 t2 : Nat) :
    (pFetchText s u).2.bufferCache = s.bufferCache ∧
    (pFetchBuffer s u).2.textCache = s.textCache ∧
    (lookupA (runPOps pInit ops).textCache u = some t1 →
      lookupA (runPOps pInit ops).bufferCache v = some t2 → t1 ≠ t2) ∧
    pCount (runPOps pInit ops) u BodyKind.text
      = (if (lookupA (runPOps pInit ops).textCache u).isSome then 1 else 0) ∧
    pCount (runPOps pInit ops) u BodyKind.buffer
      = (if (lookupA (runPOps pInit ops).bufferCache u).isSome then 1 else 0) := by
  obtain ⟨hc1, hc2⟩ := pCount_runPOps ops pInit u
    (by simp [pInit, pCount, lookupA]) (by simp [pInit, pCount, lookupA])
  refine ⟨pFetchText_bufferCache s u, pFetchBuffer_textCache s u,
    fun h1 h2 => ?_, hc1, hc2⟩
  exact (pInv_runPOps ops).2.2 _ (lookupA_mem h1) _ (lookupA_mem h2)

/-- Witness for the amended C6: a URL requested first as text then as bytes
gets two distinct handles in the two caches and two kind-tagged requests,
one per kind. -/
theorem plugin_kind_caches_disjoint_witness :
    (0 : Nat) ≠ (1 : Nat) ∧
    pCount (runPOps pInit [POp.ftext "https://example.com/a.css",
      POp.fbuf "https://example.com/a.css"]) "https://example.com/a.css"
      BodyKind.text = 1 :=
  ⟨(plugin_kind_caches_disjoint pInit
      [POp.ftext "https://example.com/a.css", POp.fbuf "https://example.com/a.css"]
      "https://example.com/a.css" "https://example.com/a.css" 0 1).2.2.1
      (by decide) (by decide),
    by
      have h := (plugin_kind_caches_disjoint pInit
        [POp.ftext "https://example.com/a.css", POp.fbuf "https://example.com/a.css"]
        "https://example.com/a.css" "https://example.com/a.css" 0 1).2.2.2.1
      simpa using h⟩

/-! The File Registry: idempotent registration, monotone membership,
one-shot pending-to-started transition. -/

theorem lookupA_removeA_self {α : Type} (l : List (String × α)) (k : String) :
    lookupA (removeA l k) k = none := by
  induction l with
  | nil => simp [removeA, lookupA]
  | cons p rest ih =>
      obtain ⟨k1, v1⟩ := p
      by_cases hp : k1 = k
      · simp [removeA, hp, ih]
      · simp [removeA, lookupA, hp, ih]

theorem fetchP_files (s : CacheState) (v : String) :
    (fetchP s v).2.files = s.files := by
  cases hl : lookupA s.requests v <;> simp [fetchP, hl]

theorem fetchP_loaders (s : CacheState) (v : String) :
    (fetchP s v).2.loaders = s.loaders := by
  cases hl : lookupA s.requests v <;> simp [fetchP, hl]

theorem runLoader_files (s : CacheState) (ld : Loader) :
    (runLoader s ld).2.files = s.files := by
  simp [runLoader, fetchP_files]

theorem runLoader_loaders (s : CacheState) (ld : Loader) :
    (runLoader s ld).2.loaders = s.loaders := by
  simp [runLoader, fetchP_loaders]

theorem regGuard_files (s : CacheState) (id : String) (ld : Loader) :
    (regGuard s id ld).files = s.files := by
  unfold regGuard
  split
  · rfl
  · split <;> rfl

/-- C8: registration into the File Registry is idempotent and the registry
is monotone: a registration for an already-registered identity is an exact
no-op (stored producer and entry state untouched), the first registration
creates the pending entry, `has` stays true under every subsequent
operation, a stored file promise never changes, and a pending entry either
stays exactly as it is or makes its single transition to a started file
promise (it is never deleted without being started). -/
theorem registry_idempotent_monotone (s : CacheState) (id : String)
    (ld ld' ld0 : Loader) (op : Op) (t : Nat) :
    (hasF s id = true → regGuard s id ld' = s) ∧
    (hasF s id = false →
      lookupA (regGuard s id ld).loaders id = some ld ∧
      hasF (regGuard s id ld) id = true) ∧
    (hasF s id = true → hasF (applyOp s op) id = true) ∧
    (lookupA s.files id = some t → lookupA (applyOp s op).files id = some t) ∧
    (lookupA s.loaders id = some ld0 →
      (lookupA (applyOp s op).loaders id = some ld0 ∧
        lookupA (applyOp s op).files id = lookupA s.files id) ∨
      (lookupA (applyOp s op).loaders id = none ∧
        ∃ t', lookupA (applyOp s op).files id = some t')) := by
  refine ⟨?_, ?_, ?_, ?_, ?_⟩
  · intro h
    unfold regGuard
    rcases hf : lookupA s.files id with _ | t'
    · rcases hl : lookupA s.loaders id with _ | ld1
      · simp [hasF, hf, hl] at h
      · simp [hl]
    · simp [hf]
  · intro h
    have hf : lookupA s.files id = none := by
      cases hv : lookupA s.files id with
      | none => rfl
      | some v => rw [hasF, hv] at h; simp at h
    have hl : lookupA s.loaders id = none := by
      cases hv : lookupA s.loaders id with
      | none => rfl
      | some v => rw [hasF, hv] at h; simp at h
    unfold regGuard
    simp [hf, hl, hasF, lookupA_insertA_self]
  · intro h
    cases op with
    | reg id' ld'' =>
        rw [applyOp]
        unfold regGuard
        split
        · exact h
        · split
          · exact h
          · simp only [hasF, Bool.or_eq_true] at h ⊢
            rcases h with h | h
            · exact Or.inl h
            · right
              by_cases he : id' = id
              · subst he
                simp [lookupA_insertA_self]
              · rwa [lookupA_insertA_ne _ _ _ _ he]
    | getOp id' =>
        rw [applyOp]
        unfold getF
        cases hf' : lookupA s.files id' with
        | some t' => exact h
        | none =>
            cases hl' : lookupA s.loaders id' with
            | some ld1 =>
                by_cases he : id' = id
                · subst he
                  simp [hasF, setF, lookupA_insertA_self]
                · simp only [hasF, Bool.or_eq_true] at h ⊢
                  rcases h with h | h
                  · left
                    simpa [setF, runLoader_files,
                      lookupA_insertA_ne _ _ _ _ he] using h
                  · right
                    simpa [runLoader_loaders,
                      lookupA_removeA_ne _ _ _ he] using h
            | none => exact h
    | fetchOnly v =>
        rw [applyOp]
        cases hl : lookupA s.requests v with
        | some t' => simpa [fetchP, hl] using h
        | none => simpa [fetchP, hl, hasF] using h
  · intro h
    cases op with
    | reg id' ld'' =>
        rw [applyOp, regGuard_files]
        exact h
    | getOp id' =>
        rw [applyOp]
        unfold getF
        cases hf' : lookupA s.files id' with
        | some t' => exact h
        | none =>
            cases hl' : lookupA s.loaders id' with
            | some ld1 =>
                have he : id' ≠ id := by
                  intro he
                  rw [he, h] at hf'
                  cases hf'
                simpa [setF, runLoader_files,
                  lookupA_insertA_ne _ _ _ _ he] using h
            | none => exact h
    | fetchOnly v =>
        cases hl : lookupA s.requests v with
        | some t' => simpa [applyOp, fetchP, hl] using h
        | none => simpa [applyOp, fetchP, hl] using h
  · intro h
    cases op with
    | reg id' ld'' =>
        rw [applyOp]
        unfold regGuard
        split
        · exact Or.inl ⟨h, rfl⟩
        · split
          · exact Or.inl ⟨h, rfl⟩
          · rename_i hf' hl'
            left
            by_cases he : id' = id
            · subst he
              rw [h] at hl'
              simp at hl'
            · exact ⟨by simpa [lookupA_insertA_ne _ _ _ _ he] using h, rfl⟩
    | getOp id' =>
        rw [applyOp]
        unfold getF
        cases hf' : lookupA s.files id' with
        | some t' => exact Or.inl ⟨h, rfl⟩
        | none =>
            cases hl' : lookupA s.loaders id' with
            | some ld1 =>
                by_cases he : id' = id
                · subst he
                  right
                  simp [setF, lookupA_insertA_self, lookupA_removeA_self]
                · left
                  exact ⟨by simpa [runLoader_loaders,
                      lookupA_removeA_ne _ _ _ he] using h,
                    by simp [setF, runLoader_files,
                      lookupA_insertA_ne _ _ _ _ he]⟩
            | none => exact Or.inl ⟨h, rfl⟩
    | fetchOnly v =>
        cases hl : lookupA s.requests v with
        | some t' => exact Or.inl (by simp [applyOp, fetchP, hl, h])
        | none => exact Or.inl (by simp [applyOp, fetchP, hl, h])

/-- Witness for C8: re-registering a registered identity with a different
producer is a no-op, and the identity stays present across a `get` that
starts its producer. -/
theorem registry_idempotent_monotone_witness :
    regGuard (runOps initState
        [Op.reg "/example.com/a.css" (Loader.text "https://example.com/a.css")])
      "/example.com/a.css" (Loader.buffer "https://example.com/other.png")
      = runOps initState
        [Op.reg "/example.com/a.css" (Loader.text "https://example.com/a.css")] ∧
    hasF (applyOp (runOps initState
        [Op.reg "/example.com/a.css" (Loader.text "https://example.com/a.css")])
      (Op.getOp "/example.com/a.css")) "/example.com/a.css" = true :=
  ⟨(registry_idempotent_monotone
      (runOps initState
        [Op.reg "/example.com/a.css" (Loader.text "https://example.com/a.css")])
      "/example.com/a.css" (Loader.text "https://example.com/a.css")
      (Loader.buffer "https://example.com/other.png")
      (Loader.text "https://example.com/a.css")
      (Op.getOp "/example.com/a.css") 0).1 (by decide),
    (registry_idempotent_monotone
      (runOps initState
        [Op.reg "/example.com/a.css" (Loader.text "https://example.com/a.css")])
      "/example.com/a.css" (Loader.text "https://example.com/a.css")
      (Loader.buffer "https://example.com/other.png")
      (Loader.text "https://example.com/a.css")
      (Op.getOp "/example.com/a.css") 0).2.2.1 (by decide)⟩

/-! The rolling completion barrier and `entries` (`materializeAll`). -/

theorem chain_ne (t : Nat) (b : Barrier) : Barrier.chain t b ≠ b := by
  intro h
  have hlen := congrArg barrierLen h
  simp [barrierLen] at hlen

theorem regGuard_filesPromise (s : CacheState) (id : String) (ld : Loader) :
    (regGuard s id ld).filesPromise = s.filesPromise := by
  unfold regGuard
  split
  · rfl
  · split <;> rfl

theorem fetchP_filesPromise (s : CacheState) (v : String) :
    (fetchP s v).2.filesPromise = s.filesPromise := by
  cases hl : lookupA s.requests v <;> simp [fetchP, hl]

theorem runLoader_filesPromise (s : CacheState) (ld : Loader) :
    (runLoader s ld).2.filesPromise = s.filesPromise := by
  simp [runLoader, fetchP_filesPromise]

theorem applyOp_fp_cases (s : CacheState) (op : Op) :
    (applyOp s op).filesPromise = s.filesPromise ∨
    ∃ t, (applyOp s op).filesPromise = Barrier.chain t s.filesPromise := by
  cases op with
  | reg id ld => exact Or.inl (regGuard_filesPromise s id ld)
  | fetchOnly v => exact Or.inl (fetchP_filesPromise s v)
  | getOp id =>
      rw [applyOp]
      unfold getF
      cases hf : lookupA s.files id with
      | some t => exact Or.inl rfl
      | none =>
          cases hl : lookupA s.loaders id with
          | some ld =>
              exact Or.inr ⟨(runLoader s ld).1,
                by simp [setF, runLoader_filesPromise]⟩
          | none => exact Or.inl rfl

theorem applyOp_barrierLen_mono (s : CacheState) (op : Op) :
    barrierLen s.filesPromise ≤ barrierLen (applyOp s op).filesPromise := by
  rcases applyOp_fp_cases s op with h | ⟨t, h⟩
  · rw [h]
  · rw [h]
    simp [barrierLen]

theorem runOps_barrierLen_mono (ops : List Op) (s : CacheState) :
    barrierLen s.filesPromise ≤ barrierLen (runOps s ops).filesPromise := by
  induction ops generalizing s with
  | nil => exact Nat.le_refl _
  | cons op rest ih =>
      rw [runOps, List.foldl_cons]
      exact Nat.le_trans (applyOp_barrierLen_mono s op) (ih (applyOp s op))

theorem applyOp_fp_eq_files (s : CacheState) (op : Op)
    (h : (applyOp s op).filesPromise = s.filesPromise) :
    (applyOp s op).files = s.files := by
  cases op with
  | reg id ld => rw [applyOp, regGuard_files]
  | fetchOnly v => rw [applyOp, fetchP_files]
  | getOp id =>
      rw [applyOp] at h ⊢
      unfold getF at h ⊢
      cases hf : lookupA s.files id with
      | some t => rfl
      | none =>
          cases hl : lookupA s.loaders id with
          | some ld =>
              exfalso
              simp only [hf, hl, setF, runLoader_filesPromise] at h
              exact chain_ne _ _ h
          | none => rfl

theorem runOps_fp_eq_files (ops : List Op) (s : CacheState)
    (h : (runOps s ops).filesPromise = s.filesPromise) :
    (runOps s ops).files = s.files := by
  induction ops generalizing s with
  | nil => rfl
  | cons op rest ih =>
      rw [runOps, List.foldl_cons] at h ⊢
      have hmono := runOps_barrierLen_mono rest (applyOp s op)
      rw [show runOps (applyOp s op) rest
          = List.foldl applyOp (applyOp s op) rest from rfl] at hmono
      rw [h] at hmono
      have hfix : (applyOp s op).filesPromise = s.filesPromise := by
        rcases applyOp_fp_cases s op with hc | ⟨t, hc⟩
        · exact hc
        · exfalso
          rw [hc] at hmono
          simp [barrierLen] at hmono
      have hrest : List.foldl applyOp (applyOp s op) rest
          = runOps (applyOp s op) rest := rfl
      rw [hrest] at h ⊢
      rw [ih (applyOp s op) (by rw [h, hfix])]
      exact applyOp_fp_eq_files s op hfix

theorem filesChained_applyOp (s : CacheState) (op : Op)
    (h : ∀ p ∈ s.files, p.2 ∈ chainTids s.filesPromise) :
    ∀ p ∈ (applyOp s op).files, p.2 ∈ chainTids (applyOp s op).filesPromise := by
  cases op with
  | reg id ld =>
      rw [applyOp, regGuard_files, regGuard_filesPromise]
      exact h
  | fetchOnly v =>
      rw [applyOp, fetchP_files, fetchP_filesPromise]
      exact h
  | getOp id =>
      rw [applyOp]
      unfold getF
      cases hf : lookupA s.files id with
      | some t => exact h
      | none =>
          cases hl : lookupA s.loaders id with
          | none => exact h
          | some ld =>
              intro p hp
              simp only [setF, runLoader_files, runLoader_filesPromise] at hp ⊢
              rcases mem_insertA hp with h' | h'
              · rw [h']
                simp [chainTids]
              · simp only [chainTids, List.mem_cons]
                exact Or.inr (h p h')

theorem filesChained_runOps (ops : List Op) (s : CacheState)
    (h : ∀ p ∈ s.files, p.2 ∈ chainTids s.filesPromise) :
    ∀ p ∈ (runOps s ops).files, p.2 ∈ chainTids (runOps s ops).filesPromise := by
  induction ops generalizing s with
  | nil => exact h
  | cons op rest ih =>
      rw [runOps, List.foldl_cons]
      exact ih _ (filesChained_applyOp s op h)

theorem barrierResultE_ok {env : Env} {b : Barrier}
    (h : barrierResultE env b = .ok ()) :
    ∀ t ∈ chainTids b, isOkE (env t) = true := by
  induction b with
  | nil => intro t ht; simp [chainTids] at ht
  | chain t' p ih =>
      intro t ht
      rw [barrierResultE] at h
      cases he : env t' with
      | error e => rw [he] at h; cases h
      | ok v =>
          rw [he] at h
          simp only [chainTids, List.mem_cons] at ht
          rcases ht with rfl | ht
          · simp [isOkE, he]
          · exact ih h t ht

theorem allPairs_ok_of_all (env : Env) (l : List (String × Nat))
    (h : ∀ p ∈ l, isOkE (env p.2) = true) :
    allPairs env l = .ok (l.map (fun p => (p.1, okValue (env p.2)))) := by
  induction l with
  | nil => rfl
  | cons p rest ih =>
      obtain ⟨id, t⟩ := p
      have hp := h (id, t) (List.mem_cons_self _ _)
      cases he : env t with
      | error e => simp [isOkE, he] at hp
      | ok v =>
          simp only [allPairs, he]
          rw [ih (fun q hq => h q (List.mem_cons_of_mem _ hq))]
          simp [okValue, he, Except.map]

theorem allPairs_error_of_mem (env : Env) (l : List (String × Nat))
    (p : String × Nat) (hp : p ∈ l) (hfail : isOkE (env p.2) = false) :
    ∃ e, allPairs env l = .error e := by
  induction l with
  | nil => cases hp
  | cons q rest ih =>
      obtain ⟨id, t⟩ := q
      cases he : env t with
      | error e => exact ⟨e, by simp [allPairs, he]⟩
      | ok v =>
          rcases List.mem_cons.mp hp with rfl | hp'
          · simp [isOkE, he] at hfail
          · obtain ⟨e, he'⟩ := ih hp'
            exact ⟨e, by simp [allPairs, he, he', Except.map]⟩

theorem entriesLoop_ok (env : Env) :
    ∀ (fuel : Nat) (s : CacheState) (phases : List (List Op))
      (pairs : List (String × String)) (sfin : CacheState),
      (∀ p ∈ s.files, p.2 ∈ chainTids s.filesPromise) →
      entriesLoop env fuel s phases = some (.ok pairs, sfin) →
      (∀ p ∈ sfin.files, isOkE (env p.2) = true) ∧
      pairs = sfin.files.map (fun p => (p.1, okValue (env p.2))) := by
  intro fuel
  induction fuel with
  | zero => intro s phases pairs sfin _ h; cases h
  | succ n ih =>
      intro s phases pairs sfin hchain h
      simp only [entriesLoop] at h
      cases hb : barrierResultE env s.filesPromise with
      | error e =>
          rw [hb] at h
          simp at h
      | ok uu =>
          rw [hb] at h
          by_cases hq : (runOps s (phases.headD [])).filesPromise
              = s.filesPromise
          · rw [if_pos hq] at h
            have hpair := Option.some.inj h
            have hres : allPairs env (runOps s (phases.headD [])).files
                = Except.ok pairs := congrArg Prod.fst hpair
            have hsfin : runOps s (phases.headD []) = sfin :=
              congrArg Prod.snd hpair
            have hfiles : (runOps s (phases.headD [])).files = s.files :=
              runOps_fp_eq_files _ s hq
            have hok : ∀ p ∈ (runOps s (phases.headD [])).files,
                isOkE (env p.2) = true := by
              intro p hp
              rw [hfiles] at hp
              exact barrierResultE_ok hb p.2 (hchain p hp)
            refine ⟨by rw [← hsfin]; exact hok, ?_⟩
            rw [allPairs_ok_of_all env _ hok] at hres
            rw [← hsfin]
            exact (Except.ok.inj hres).symm
          · rw [if_neg hq] at h
            exact ih _ _ _ _ (filesChained_runOps _ s hchain) h

/-- C2: when `materializeAll` (`entries`) returns successfully, it returns
exactly one (identity, resolved content) pair for every identity registered
during the run — including identities registered during the waiting itself
— and every started computation has settled successfully: the loop returns
only after observing the rolling barrier unchanged across an await, which
transitively covers every chained computation. -/
theorem materialize_all_pairs (env : Env) (fuel : Nat) (ops : List Op)
    (phases : List (List Op)) (pairs : List (String × String))
    (sfin : CacheState)
    (h : entriesLoop env fuel (runOps initState ops) phases
      = some (.ok pairs, sfin)) :
    (∀ p ∈ sfin.files, isOkE (env p.2) = true) ∧
    pairs = sfin.files.map (fun p => (p.1, okValue (env p.2))) :=
  entriesLoop_ok env fuel (runOps initState ops) phases pairs sfin
    (filesChained_runOps ops initState (by simp [initState])) h

/-- Witness for C2: one registered stylesheet identity whose producer
resolves; `entries` returns exactly its (identity, content) pair. -/
theorem materialize_all_pairs_witness :
    ([("/example.com/a.css", "body")] : List (String × String))
      = (runOps initState
          [Op.reg "/example.com/a.css" (Loader.styles "https://example.com/a.css"),
           Op.getOp "/example.com/a.css"]).files.map
          (fun p => (p.1, okValue ((fun _ => Except.ok "body") p.2))) :=
  (materialize_all_pairs (fun _ => Except.ok "body") 1
    [Op.reg "/example.com/a.css" (Loader.styles "https://example.com/a.css"),
     Op.getOp "/example.com/a.css"] []
    [("/example.com/a.css", "body")]
    (runOps initState
      [Op.reg "/example.com/a.css" (Loader.styles "https://example.com/a.css"),
       Op.getOp "/example.com/a.css"]) (by rfl)).2

theorem entriesLoop_fail (env : Env) :
    ∀ (fuel : Nat) (s : CacheState) (phases : List (List Op))
      (res : Except String (List (String × String))) (sfin : CacheState),
      entriesLoop env fuel s phases = some (res, sfin) →
      ∀ p ∈ sfin.files, isOkE (env p.2) = false →
      ∃ e, res = Except.error e := by
  intro fuel
  induction fuel with
  | zero => intro s phases res sfin h; cases h
  | succ n ih =>
      intro s phases res sfin h p hp hfail
      simp only [entriesLoop] at h
      cases hb : barrierResultE env s.filesPromise with
      | error e =>
          rw [hb] at h
          have hpair := Option.some.inj h
          exact ⟨e, (congrArg Prod.fst hpair).symm⟩
      | ok uu =>
          rw [hb] at h
          by_cases hq : (runOps s (phases.headD [])).filesPromise
              = s.filesPromise
          · rw [if_pos hq] at h
            have hpair := Option.some.inj h
            have hres : allPairs env (runOps s (phases.headD [])).files = res :=
              congrArg Prod.fst hpair
            have hsfin : runOps s (phases.headD []) = sfin :=
              congrArg Prod.snd hpair
            obtain ⟨e, he⟩ := allPairs_error_of_mem env
              (runOps s (phases.headD [])).files p (by rw [hsfin]; exact hp) hfail
            exact ⟨e, by rw [← hres, he]⟩
          · rw [if_neg hq] at h
            exact ih _ _ _ _ h p hp hfail

/-- C3: when any registered identity's producer fails, `materializeAll`
surfaces a failure: every result the waiting loop can produce for such a
run is an error — never a list of successfully resolved pairs. -/
theorem materialize_fail_fast (env : Env) (fuel : Nat) (ops : List Op)
    (phases : List (List Op))
    (res : Except String (List (String × String))) (sfin : CacheState)
    (h : entriesLoop env fuel (runOps initState ops) phases = some (res, sfin))
    (p : String × Nat) (hp : p ∈ sfin.files)
    (hfail : isOkE (env p.2) = false) :
    ∃ e, res = Except.error e :=
  entriesLoop_fail env fuel (runOps initState ops) phases res sfin h p hp hfail

/-- Witness for C3: the single registered identity's producer rejects, and
`entries` reports exactly that failure. -/
theorem materialize_fail_fast_witness :
    ∃ e, (Except.error "ECONNRESET" :
      Except String (List (String × String))) = Except.error e :=
  materialize_fail_fast (fun _ => Except.error "ECONNRESET") 1
    [Op.reg "/example.com/a.css" (Loader.styles "https://example.com/a.css"),
     Op.getOp "/example.com/a.css"] []
    (Except.error "ECONNRESET")
    (runOps initState
      [Op.reg "/example.com/a.css" (Loader.styles "https://example.com/a.css"),
       Op.getOp "/example.com/a.css"])
    (by rfl) ("/example.com/a.css", 1) (by decide) (by decide)

/-! The Identity Mapper. -/

/-- C4: `toFilePath` maps URL components deterministically (it is a pure
function) by host: the analytics host collapses to
`/www.googletagmanager.com/gtag.js` regardless of path and query; the fonts
host yields `/fonts.googleapis.com/<Name>.css` with `<Name>` the `family`
query value truncated at the first `:`; every other host yields `/` ++ host
++ percent-decoded pathname (query dropped). -/
theorem toFilePath_mapping (u : URLParts) (fam dec : String) :
    (u.host = "www.googletagmanager.com" →
      toFilePath u = .ok "/www.googletagmanager.com/gtag.js") ∧
    (u.host = "fonts.googleapis.com" →
      lookupA u.searchParams "family" = some fam →
      toFilePath u = .ok ("/fonts.googleapis.com/" ++ beforeColon fam ++ ".css")) ∧
    (u.host ≠ "www.googletagmanager.com" → u.host ≠ "fonts.googleapis.com" →
      decodeURIComponent u.pathname = .ok dec →
      toFilePath u = .ok ("/" ++ u.host ++ dec)) := by
  obtain ⟨host, path, params⟩ := u
  refine ⟨fun h => ?_, fun h hf => ?_, fun h1 h2 hd => ?_⟩
  · subst h
    rfl
  · subst h
    have hstep : toFilePath ⟨"fonts.googleapis.com", path, params⟩
        = match lookupA params "family" with
          | none => Except.error "TypeError: family is null"
          | some f =>
              Except.ok ("/fonts.googleapis.com/" ++ beforeColon f ++ ".css") :=
      rfl
    rw [hstep, hf]
  · simp only [toFilePath] at *
    rw [if_neg h1, if_neg h2, hd]
    rfl

/-- Witness for C4: the three mapping rules at concrete URLs — a tag-manager
URL with a query, a two-family fonts URL, and a CDN URL with an encoded
space in its path. -/
theorem toFilePath_mapping_witness :
    toFilePath ⟨"www.googletagmanager.com", "/gtag/js", [("id", "UA-1")]⟩
      = .ok "/www.googletagmanager.com/gtag.js" ∧
    toFilePath ⟨"fonts.googleapis.com", "/css", [("family", "Roboto:400,700")]⟩
      = .ok ("/fonts.googleapis.com/" ++ beforeColon "Roboto:400,700" ++ ".css") ∧
    toFilePath ⟨"cdn.example.com", "/img/a%20b.png", []⟩
      = .ok ("/" ++ "cdn.example.com" ++ "/img/a b.png") :=
  ⟨(toFilePath_mapping
      ⟨"www.googletagmanager.com", "/gtag/js", [("id", "UA-1")]⟩ "" "").1 rfl,
   (toFilePath_mapping
      ⟨"fonts.googleapis.com", "/css", [("family", "Roboto:400,700")]⟩
      "Roboto:400,700" "").2.1 rfl (by rfl),
   (toFilePath_mapping ⟨"cdn.example.com", "/img/a%20b.png", []⟩
      "" "/img/a b.png").2.2 (by decide) (by decide) (by rfl)⟩

/-! Attribute rewriting happens before the fetch. -/

/-- C10: for every external stylesheet or script reference whose identity
mapping succeeds, `fetchStyles`/`fetchScript` write the mapped File
Identity into the element's `href`/`src` synchronously and return a state
in which no network request has been issued and no file has been resolved
(only a lazy producer may have been registered) — so the attribute holds
the local identity even if the later fetch of that resource fails. -/
theorem attr_set_before_fetch (s : CacheState) (el el2 : Elem)
    (cssUrl scriptUrl file gfile : String) :
    (el.href = some cssUrl → isExternalUrl cssUrl = true →
      toFilePathStr cssUrl = .ok file →
      ∃ s', fetchStylesM s el = .ok (s', { el with href := some file }) ∧
        s'.issued = s.issued ∧ s'.files = s.files ∧
        s'.requests = s.requests) ∧
    (el2.src = some scriptUrl → isExternalUrl scriptUrl = true →
      toFilePathStr scriptUrl = .ok gfile →
      ∃ s', fetchScriptM s el2 = .ok (s', { el2 with src := some gfile }) ∧
        s'.issued = s.issued ∧ s'.files = s.files ∧
        s'.requests = s.requests) := by
  constructor
  · intro h hx hm
    refine ⟨regGuard s file (Loader.styles cssUrl), ?_,
      regGuard_issued s file _, regGuard_files s file _,
      regGuard_requests s file _⟩
    simp only [fetchStylesM, h]
    rw [if_pos hx, hm]
  · intro h hx hm
    refine ⟨regGuard s gfile (Loader.text scriptUrl), ?_,
      regGuard_issued s gfile _, regGuard_files s gfile _,
      regGuard_requests s gfile _⟩
    simp only [fetchScriptM, h]
    rw [if_pos hx, hm]

/-- Witness for C10: a concrete external stylesheet link gets its `href`
rewritten to the mapped identity while the returned state has issued no
request and resolved nothing. -/
theorem attr_set_before_fetch_witness :
    ∃ s', fetchStylesM initState
        { href := some "https://e.co/a.css", src := none }
      = .ok (s', { href := some "/e.co/a.css", src := none }) ∧
      s'.issued = initState.issued ∧ s'.files = initState.files ∧
      s'.requests = initState.requests := by
  have h := (attr_set_before_fetch initState
    { href := some "https://e.co/a.css", src := none }
    { href := none, src := none } "https://e.co/a.css" ""
    "/e.co/a.css" "").1 rfl (by decide) (by rfl)
  exact h

/-! The URL Classifier. -/

theorem isPrefixOf_append (a b cs : List Char) :
    (a ++ b).isPrefixOf cs
      = (a.isPrefixOf cs && b.isPrefixOf (cs.drop a.length)) := by
  induction a generalizing cs with
  | nil => simp [List.isPrefixOf]
  | cons x xs ih =>
      cases cs with
      | nil => simp [List.isPrefixOf]
      | cons y ys => simp [List.isPrefixOf, ih, Bool.and_assoc]

/-- C5 counterexample: the classifier of `AsyncFileCache.ts`/`plugin.ts`
(`urlRegex().test`) is not the begins-with test the claim states: it
accepts `www.a.bc`, which begins with none of `http://`, `https://`, `//`
(the `www.` alternative of `url-regex`, matched anywhere in the string),
and it rejects `https://`, which does begin with `https://` but carries no
host. -/
theorem url_classifier_cex :
    isExternalUrl "www.a.bc" = true ∧
    beginsWith "www.a.bc" "http://" = false ∧
    beginsWith "www.a.bc" "https://" = false ∧
    beginsWith "www.a.bc" "//" = false ∧
    isExternalUrl "https://" = false := by
  exact ⟨by decide, by decide, by decide, by decide, by decide⟩

/-- C5 amended: the begins-with characterization is exactly the behavior of
`isExternalUrl` in `src/unnamed/part_000` (`/^(https?:)?\/\//`): it returns
true precisely for strings starting with `http://`, `https://` or `//`.
The `url-regex`-based classifier of `AsyncFileCache.ts`/`plugin.ts`
deviates from it in both directions (see the counterexample). -/
theorem basic_classifier_exact (s : String) :
    isExternalUrlBasic s
      = (beginsWith s "http://" || beginsWith s "https://" ||
        beginsWith s "//") := by
  obtain ⟨cs⟩ := s
  have e4 : "http".data.length = 4 := rfl
  have e1 : "s".data.length = 1 := rfl
  have e1c : ":".data.length = 1 := rfl
  have h7 : ("http://".data).isPrefixOf cs
      = (("http".data).isPrefixOf cs &&
        ((":".data).isPrefixOf (cs.drop 4) &&
          ("//".data).isPrefixOf (cs.drop 5))) := by
    have hsplit : "http://".data = "http".data ++ (":".data ++ "//".data) := by
      decide
    rw [hsplit, isPrefixOf_append, isPrefixOf_append, e4, e1c, List.drop_drop]
  have h8 : ("https://".data).isPrefixOf cs
      = (("http".data).isPrefixOf cs && (("s".data).isPrefixOf (cs.drop 4) &&
        ((":".data).isPrefixOf (cs.drop 5) &&
          ("//".data).isPrefixOf (cs.drop 6)))) := by
    have hsplit : "https://".data
        = "http".data ++ ("s".data ++ (":".data ++ "//".data)) := by decide
    rw [hsplit, isPrefixOf_append, isPrefixOf_append, isPrefixOf_append,
      e4, e1, e1c, List.drop_drop, List.drop_drop]
  simp only [isExternalUrlBasic, beginsWith, mseq, mopt, mlit, e4, e1, e1c,
    h7, h8]
  by_cases h1 : ("http".data).isPrefixOf cs <;>
    by_cases h2 : ("s".data).isPrefixOf (cs.drop 4) <;>
    by_cases h3 : (":".data).isPrefixOf (cs.drop 5) <;>
    by_cases h4 : (":".data).isPrefixOf (cs.drop 4) <;>
    by_cases h5 : ("//".data).isPrefixOf (cs.drop 6) <;>
    by_cases h6 : ("//".data).isPrefixOf (cs.drop 5) <;>
    by_cases h0 : ("//".data).isPrefixOf cs <;>
    simp [mseq, mopt, mlit, h1, h2, h3, h4, h5, h6, h0, e4, e1, e1c,
      List.drop_drop]

/-! The CSS Reference Rewriter: geometry of the matches and edits. -/

theorem drop_eq_cons {α : Type} {l t : List α} {c : α} {n : Nat}
    (h : l.drop n = c :: t) : l[n]? = some c ∧ l.drop (n + 1) = t := by
  constructor
  · have h0 := List.getElem?_drop l n 0
    rw [h] at h0
    simpa using h0.symm
  · have h1 : (l.drop n).drop 1 = t := by rw [h]; rfl
    rwa [List.drop_drop] at h1

theorem tryMatch_spec {cs : List Char} {mlen : Nat} {tok : String}
    (h : tryMatch cs = some (mlen, tok)) :
    6 ≤ mlen ∧ mlen ≤ cs.length ∧
    cs.take 4 = ['u', 'r', 'l', '('] ∧ cs[mlen - 1]? = some ')' := by
  simp only [tryMatch] at h
  by_cases h4 : cs.take 4 = ['u', 'r', 'l', '(']
  swap
  · rw [if_neg h4] at h
    cases h
  rw [if_pos h4] at h
  have hlen4 : 4 ≤ cs.length := by
    have hlt := congrArg List.length h4
    simp [List.length_take] at hlt
    omega
  set w := ((cs.drop 4).takeWhile isJsWs).length with hw
  cases heq : (cs.drop 4).drop w with
  | nil => rw [heq] at h; cases h
  | cons c cs2 =>
      rw [heq] at h
      have hcs2 : cs.drop (4 + w) = c :: cs2 := by
        rw [← List.drop_drop]
        exact heq
      obtain ⟨hcAt, hcs2'⟩ := drop_eq_cons hcs2
      dsimp only at h
      by_cases hq : c = '\'' ∨ c = '"'
      · rw [if_pos hq] at h
        cases hfi : cs2.findIdx? (fun d => d = c) with
        | none => rw [hfi] at h; cases h
        | some k =>
            rw [hfi] at h
            dsimp only at h
            by_cases hk0 : k = 0
            · rw [if_pos hk0] at h; cases h
            · rw [if_neg hk0] at h
              set w2 := ((cs2.drop (k + 1)).takeWhile isJsWs).length with hw2
              cases heq2 : (cs2.drop (k + 1)).drop w2 with
              | nil => rw [heq2] at h; cases h
              | cons c3 t3 =>
                  rw [heq2] at h
                  have ht3 : cs.drop (4 + w + 1 + (k + 1) + w2) = c3 :: t3 := by
                    rw [show 4 + w + 1 + (k + 1) + w2
                        = 4 + w + 1 + ((k + 1) + w2) from by omega,
                      ← List.drop_drop, ← List.drop_drop, hcs2']
                    exact heq2
                  obtain ⟨hAt3, _⟩ := drop_eq_cons ht3
                  have hlen3 := congrArg List.length ht3
                  simp [List.length_drop] at hlen3
                  split at h
                  · rename_i tl5 hpat
                    obtain ⟨hc3, -⟩ := List.cons.inj hpat
                    rw [Option.some.injEq, Prod.mk.injEq] at h
                    obtain ⟨hmlen, -⟩ := h
                    refine ⟨by omega, by omega, h4, ?_⟩
                    rw [show mlen - 1 = 4 + w + 1 + (k + 1) + w2 from by omega,
                      hAt3, hc3]
                  · cases h
      · rw [if_neg hq] at h
        by_cases hcp : c = ')'
        · rw [if_pos hcp] at h
          by_cases hw0 : w = 0
          · rw [if_pos hw0] at h; cases h
          · rw [if_neg hw0] at h
            rw [Option.some.injEq, Prod.mk.injEq] at h
            obtain ⟨hmlen, _⟩ := h
            have hlenc := congrArg List.length hcs2
            simp [List.length_drop] at hlenc
            refine ⟨by omega, by omega, h4, ?_⟩
            rw [show mlen - 1 = 4 + w from by omega]
            rw [hcAt, hcp]
        · rw [if_neg hcp] at h
          set tokLen := ((c :: cs2).takeWhile isBare).length with htok
          have hbare : isBare c = true := by
            simp only [isBare]
            push_neg at hq
            simp [hq.1, hq.2, hcp]
          have htok1 : 1 ≤ tokLen := by
            rw [htok, List.takeWhile_cons, if_pos hbare]
            simp
          cases heq3 : (c :: cs2).drop tokLen with
          | nil => rw [heq3] at h; cases h
          | cons c4 t4 =>
              rw [heq3] at h
              have ht4 : cs.drop (4 + w + tokLen) = c4 :: t4 := by
                rw [show 4 + w + tokLen = 4 + w + tokLen from rfl,
                  ← List.drop_drop (tokLen), hcs2]
                exact heq3
              obtain ⟨hAt4, _⟩ := drop_eq_cons ht4
              have hlen4' := congrArg List.length ht4
              simp [List.length_drop] at hlen4'
              split at h
              · rename_i tl6 hpat
                obtain ⟨hc4, -⟩ := List.cons.inj hpat
                rw [Option.some.injEq, Prod.mk.injEq] at h
                obtain ⟨hmlen, -⟩ := h
                refine ⟨by omega, by omega, h4, ?_⟩
                rw [show mlen - 1 = 4 + w + tokLen from by omega, hAt4, hc4]
              · cases h

theorem scanCssF_index_ge :
    ∀ (fuel : Nat) (cs : List Char) (pos : Nat),
      ∀ m ∈ scanCssF fuel cs pos, pos ≤ m.index := by
  intro fuel
  induction fuel with
  | zero => intro cs pos m hm; simp [scanCssF] at hm
  | succ n ih =>
      intro cs pos m hm
      cases cs with
      | nil => simp [scanCssF] at hm
      | cons c rest =>
          rw [scanCssF] at hm
          cases htm : tryMatch (c :: rest) with
          | some r =>
              obtain ⟨mlen, tok⟩ := r
              rw [htm] at hm
              rcases List.mem_cons.mp hm with rfl | hm'
              · exact Nat.le_refl _
              · exact Nat.le_trans (Nat.le_add_right _ _) (ih _ _ m hm')
          | none =>
              rw [htm] at hm
              exact Nat.le_trans (Nat.le_succ _) (ih _ _ m hm)

theorem scanCssF_facts :
    ∀ (fuel : Nat) (cs : List Char) (pos : Nat) (full : List Char),
      full.drop pos = cs →
      ∀ m ∈ scanCssF fuel cs pos,
        pos ≤ m.index ∧ 6 ≤ m.len ∧ m.index + m.len ≤ full.length ∧
        (full.drop m.index).take 4 = ['u', 'r', 'l', '('] ∧
        full[m.index + m.len - 1]? = some ')' := by
  intro fuel
  induction fuel with
  | zero => intro cs pos full hfull m hm; simp [scanCssF] at hm
  | succ n ih =>
      intro cs pos full hfull m hm
      cases cs with
      | nil => simp [scanCssF] at hm
      | cons c rest =>
          have hlen : full.length - pos = (c :: rest).length := by
            rw [← List.length_drop, hfull]
          have hup : pos ≤ full.length := by
            by_contra hgt
            push_neg at hgt
            have hnil : full.drop pos = [] :=
              List.drop_eq_nil_of_le (Nat.le_of_lt hgt)
            rw [hfull] at hnil
            cases hnil
          have hlenpos : pos + (c :: rest).length = full.length := by
            omega
          rw [scanCssF] at hm
          cases htm : tryMatch (c :: rest) with
          | some r =>
              obtain ⟨mlen, tok⟩ := r
              rw [htm] at hm
              obtain ⟨h6, hle, hurl, hcl⟩ := tryMatch_spec htm
              rcases List.mem_cons.mp hm with rfl | hm'
              · refine ⟨Nat.le_refl _, h6, by dsimp only; omega, ?_, ?_⟩
                · rw [hfull]
                  exact hurl
                · have hg := List.getElem?_drop full pos (mlen - 1)
                  rw [hfull] at hg
                  dsimp only
                  rw [show pos + mlen - 1 = pos + (mlen - 1) from by omega,
                    ← hg]
                  exact hcl
              · have hdrop : full.drop (pos + mlen) = (c :: rest).drop mlen := by
                  rw [← List.drop_drop, hfull]
                obtain ⟨g0, g1, g2, g3, g4⟩ := ih _ _ full hdrop m hm'
                exact ⟨by omega, g1, g2, g3, g4⟩
          | none =>
              rw [htm] at hm
              have hdrop : full.drop (pos + 1) = rest := by
                rw [← List.drop_drop, hfull]
                rfl
              obtain ⟨g0, g1, g2, g3, g4⟩ := ih _ _ full hdrop m hm
              exact ⟨by omega, g1, g2, g3, g4⟩

theorem editsOkB_mono {n : Nat} :
    ∀ {edits : List SpanEdit} {p q : Nat}, editsOkB n q edits = true →
      p ≤ q → editsOkB n p edits = true := by
  intro edits
  induction edits with
  | nil => intro p q h _; exact h
  | cons e es ih =>
      intro p q h hle
      rw [editsOkB] at h ⊢
      simp only [Bool.and_eq_true, decide_eq_true_eq] at h ⊢
      exact ⟨⟨⟨by omega, h.1.1.2⟩, h.1.2⟩, h.2⟩

theorem editsOkB_bounds {n : Nat} :
    ∀ {edits : List SpanEdit} {p : Nat}, editsOkB n p edits = true →
      ∀ e ∈ edits, p + 4 ≤ e.start ∧ e.start < e.stop ∧ e.stop < n := by
  intro edits
  induction edits with
  | nil => intro p _ e he; cases he
  | cons e0 es ih =>
      intro p h e he
      rw [editsOkB] at h
      simp only [Bool.and_eq_true, decide_eq_true_eq] at h
      obtain ⟨⟨⟨h1, h2⟩, h3⟩, h4⟩ := h
      rcases List.mem_cons.mp he with rfl | he'
      · exact ⟨h1, h2, h3⟩
      · obtain ⟨g1, g2, g3⟩ := ih h4 e he'
        exact ⟨by omega, g2, g3⟩

theorem editsOkB_boundary {n : Nat} :
    ∀ {edits : List SpanEdit} {p : Nat}, editsOkB n p edits = true →
      ∀ e ∈ edits, ∀ i, ((e.start - 4 ≤ i ∧ i < e.start) ∨ i = e.stop) →
        outsideB i edits = true := by
  intro edits
  induction edits with
  | nil => intro p _ e he; cases he
  | cons e0 es ih =>
      intro p h e he i hi
      rw [editsOkB] at h
      simp only [Bool.and_eq_true, decide_eq_true_eq] at h
      obtain ⟨⟨⟨h1, h2⟩, h3⟩, h4⟩ := h
      rw [outsideB, List.all_cons]
      simp only [Bool.and_eq_true, Bool.or_eq_true, decide_eq_true_eq]
      rcases List.mem_cons.mp he with rfl | he'
      · refine ⟨?_, ?_⟩
        · rcases hi with ⟨-, hi2⟩ | rfl
          · exact Or.inl hi2
          · exact Or.inr (Nat.le_refl _)
        · rw [List.all_eq_true]
          intro x hx
          simp only [Bool.or_eq_true, decide_eq_true_eq]
          obtain ⟨g1, -, -⟩ := editsOkB_bounds h4 x hx
          left
          rcases hi with ⟨-, hi2⟩ | rfl
          · omega
          · omega
      · have hbnd := editsOkB_bounds h4 e he'
        refine ⟨?_, ?_⟩
        · right
          rcases hi with ⟨hi1, -⟩ | rfl
          · omega
          · omega
        · have := ih h4 e he' i hi
          rw [outsideB] at this
          exact this

theorem scan_edits_ok (f : CssMatch → Option SpanEdit)
    (hf : ∀ m e, f m = some e →
      e.start = m.index + 4 ∧ e.stop = m.index + m.len - 1) :
    ∀ (fuel : Nat) (cs : List Char) (pos n : Nat), pos + cs.length = n →
      editsOkB n pos ((scanCssF fuel cs pos).filterMap f) = true := by
  intro fuel
  induction fuel with
  | zero => intro cs pos n _; simp [scanCssF, editsOkB]
  | succ k ih =>
      intro cs pos n hn
      cases cs with
      | nil => simp [scanCssF, editsOkB]
      | cons c rest =>
          rw [scanCssF]
          cases htm : tryMatch (c :: rest) with
          | none =>
              have hrec := ih rest (pos + 1) n
                (by simp only [List.length_cons] at hn; omega)
              exact editsOkB_mono hrec (Nat.le_succ _)
          | some r =>
              obtain ⟨mlen, tok⟩ := r
              obtain ⟨h6, hle, -, -⟩ := tryMatch_spec htm
              rw [List.filterMap_cons]
              have hrec := ih ((c :: rest).drop mlen) (pos + mlen) n
                (by rw [List.length_drop]; omega)
              cases hfm : f ⟨pos, mlen, tok⟩ with
              | none => exact editsOkB_mono hrec (Nat.le_add_right _ _)
              | some e =>
                  obtain ⟨hs, hp⟩ := hf _ _ hfm
                  rw [editsOkB]
                  simp only [Bool.and_eq_true, decide_eq_true_eq]
                  dsimp only at hs hp
                  refine ⟨⟨⟨by omega, by omega⟩, by omega⟩, ?_⟩
                  exact editsOkB_mono hrec (by omega)

theorem scan_outside (f : CssMatch → Option SpanEdit)
    (hf : ∀ m e, f m = some e →
      e.start = m.index + 4 ∧ e.stop = m.index + m.len - 1) :
    ∀ (fuel : Nat) (cs : List Char) (pos : Nat),
      ∀ m ∈ scanCssF fuel cs pos, f m = none →
      ∀ i, m.index ≤ i → i < m.index + m.len →
        outsideB i ((scanCssF fuel cs pos).filterMap f) = true := by
  intro fuel
  induction fuel with
  | zero => intro cs pos m hm; simp [scanCssF] at hm
  | succ k ih =>
      intro cs pos m hm hnone i hi1 hi2
      cases cs with
      | nil => simp [scanCssF] at hm
      | cons c rest =>
          rw [scanCssF] at hm ⊢
          cases htm : tryMatch (c :: rest) with
          | none =>
              rw [htm] at hm
              dsimp only
              exact ih rest (pos + 1) m hm hnone i hi1 hi2
          | some r =>
              obtain ⟨mlen, tok⟩ := r
              rw [htm] at hm
              dsimp only
              obtain ⟨h6, hle, -, -⟩ := tryMatch_spec htm
              rcases List.mem_cons.mp hm with rfl | hm'
              · simp only [List.filterMap_cons, hnone]
                have hok := scan_edits_ok f hf k ((c :: rest).drop mlen)
                  (pos + mlen) (pos + mlen + ((c :: rest).drop mlen).length)
                  rfl
                rw [outsideB, List.all_eq_true]
                intro e he
                simp only [Bool.or_eq_true, decide_eq_true_eq]
                obtain ⟨g1, -, -⟩ := editsOkB_bounds hok e he
                left
                dsimp only at hi2
                omega
              · cases hfm : f ⟨pos, mlen, tok⟩ with
                | none =>
                    simp only [List.filterMap_cons, hfm]
                    exact ih _ _ m hm' hnone i hi1 hi2
                | some e0 =>
                    simp only [List.filterMap_cons, hfm]
                    rw [outsideB, List.all_cons]
                    simp only [Bool.and_eq_true, Bool.or_eq_true,
                      decide_eq_true_eq]
                    refine ⟨?_, ?_⟩
                    · right
                      obtain ⟨-, hp⟩ := hf _ _ hfm
                      have hge := scanCssF_index_ge k ((c :: rest).drop mlen)
                        (pos + mlen) m hm'
                      dsimp only at hp
                      omega
                    · have hrec := ih _ _ m hm' hnone i hi1 hi2
                      rw [outsideB] at hrec
                      exact hrec

theorem splice_outside :
    ∀ (edits : List SpanEdit) (cs : List Char) (pos i : Nat),
      editsOkB (pos + cs.length) pos edits = true →
      pos ≤ i → i < pos + cs.length →
      outsideB i edits = true →
      (splice cs pos edits)[shiftPos edits pos i]? = cs[i - pos]? := by
  intro edits
  induction edits with
  | nil => intro cs pos i _ _ _ _; rfl
  | cons e es ih =>
      intro cs pos i hok hpos hlt hout
      rw [editsOkB] at hok
      simp only [Bool.and_eq_true, decide_eq_true_eq] at hok
      obtain ⟨⟨⟨hk1, hk2⟩, hk3⟩, hk4⟩ := hok
      rw [outsideB, List.all_cons] at hout
      simp only [Bool.and_eq_true, Bool.or_eq_true, decide_eq_true_eq] at hout
      obtain ⟨hout0, houts⟩ := hout
      rw [splice, shiftPos]
      have hAlen : (cs.take (e.start - pos)).length = e.start - pos := by
        rw [List.length_take]
        omega
      by_cases hcase : i < e.start
      · rw [if_pos hcase]
        have hAB : i - pos
            < (cs.take (e.start - pos) ++ e.repl).length := by
          rw [List.length_append, hAlen]
          omega
        rw [List.getElem?_append_left hAB,
          List.getElem?_append_left (by rw [hAlen]; omega),
          List.getElem?_take_of_lt (by omega)]
      · rw [if_neg hcase]
        have hstop : e.stop ≤ i := by
          rcases hout0 with h | h
          · omega
          · exact h
        have hABlen : (cs.take (e.start - pos) ++ e.repl).length
            = (e.start - pos) + e.repl.length := by
          rw [List.length_append, hAlen]
        rw [List.getElem?_append_right (by rw [hABlen]; omega)]
        have hidx1 : (e.start - pos) + e.repl.length + shiftPos es e.stop i
            - (cs.take (e.start - pos) ++ e.repl).length
            = shiftPos es e.stop i := by
          rw [hABlen]
          omega
        rw [hidx1]
        have hcs' : e.stop + (cs.drop (e.stop - pos)).length
            = pos + cs.length := by
          rw [List.length_drop]
          omega
        have hrec := ih (cs.drop (e.stop - pos)) e.stop i
          (by rw [hcs']; exact editsOkB_mono hk4 (Nat.le_succ _))
          hstop (by rw [hcs']; exact hlt)
          (by rw [outsideB]; exact houts)
        rw [hrec, List.getElem?_drop,
          show (e.stop - pos) + (i - e.stop) = i - pos from by omega]

/-- C9: `replaceCssUrls` is a frame-preserving rewrite. The recorded edits
(1) form ordered, disjoint, nonempty spans lying strictly between `url(`
and `)`; (2) each edit sits four characters after a literal `url(` of the
input, stops just before a `)`, and splices in the JSON-quoted
(string-escaped) replacer result for an URL classified external;
(3) the boundary characters — the `url(` before each span and the `)` at
its stop — lie outside every span; (4) every input byte outside the spans
reappears unchanged in the output at its shifted offset; (5) a regex match
whose resolved URL is not external contributes no span, its whole match
region lying outside every edit; and (6) with no external reference the
output is byte-identical to the input. -/
theorem replaceCssUrls_frame (text parentUrl : String)
    (replacer : String → String) :
    editsOkB text.data.length 0 (cssEdits text parentUrl replacer) = true ∧
    (∀ e ∈ cssEdits text parentUrl replacer,
      4 ≤ e.start ∧
      (text.data.drop (e.start - 4)).take 4 = ['u', 'r', 'l', '('] ∧
      text.data[e.stop]? = some ')' ∧
      ∃ u, isExternalUrl u = true ∧
        e.repl = (jsonStringify (replacer u)).data) ∧
    (∀ e ∈ cssEdits text parentUrl replacer, ∀ i,
      ((e.start - 4 ≤ i ∧ i < e.start) ∨ i = e.stop) →
      outsideB i (cssEdits text parentUrl replacer) = true) ∧
    (∀ i, i < text.data.length →
      outsideB i (cssEdits text parentUrl replacer) = true →
      (replaceCssUrls text parentUrl replacer).data[
        shiftPos (cssEdits text parentUrl replacer) 0 i]? = text.data[i]?) ∧
    (∀ m ∈ cssMatches text,
      isExternalUrl (resolveCssUrl parentUrl m.token) = false →
      ∀ i, m.index ≤ i → i < m.index + m.len →
        outsideB i (cssEdits text parentUrl replacer) = true) ∧
    (cssEdits text parentUrl replacer = [] →
      replaceCssUrls text parentUrl replacer = text) := by
  have hfshape : ∀ (m : CssMatch) (e : SpanEdit),
      (fun m =>
        let url := resolveCssUrl parentUrl m.token
        if isExternalUrl url then
          some { start := m.index + 4, stop := m.index + m.len - 1,
                 repl := (jsonStringify (replacer url)).data }
        else none : CssMatch → Option SpanEdit) m = some e →
      e.start = m.index + 4 ∧ e.stop = m.index + m.len - 1 := by
    intro m e h
    dsimp only at h
    split at h
    · cases h
      exact ⟨rfl, rfl⟩
    · cases h
  have hok : editsOkB text.data.length 0
      (cssEdits text parentUrl replacer) = true := by
    have h := scan_edits_ok _ hfshape (text.data.length + 1) text.data 0
      text.data.length (by omega)
    exact h
  refine ⟨hok, ?_, ?_, ?_, ?_, ?_⟩
  · intro e he
    rw [cssEdits] at he
    obtain ⟨m, hmm, hfm⟩ := List.mem_filterMap.mp he
    obtain ⟨-, h6, hbound, hurl, hcl⟩ := scanCssF_facts
      (text.data.length + 1) text.data 0 text.data (by simp) m hmm
    obtain ⟨hs, hp⟩ := hfshape m e hfm
    have hrepl : ∃ u, isExternalUrl u = true ∧
        e.repl = (jsonStringify (replacer u)).data := by
      dsimp only at hfm
      split at hfm
      · cases hfm
        exact ⟨_, by assumption, rfl⟩
      · cases hfm
    refine ⟨by omega, ?_, ?_, hrepl⟩
    · rw [show e.start - 4 = m.index from by omega]
      exact hurl
    · rw [hp]
      exact hcl
  · intro e he i hi
    exact editsOkB_boundary hok e he i hi
  · intro i hi hout
    have h := splice_outside (cssEdits text parentUrl replacer) text.data 0 i
      (by simpa using hok) (Nat.zero_le _) (by omega) hout
    simpa using h
  · intro m hm hext i h1 h2
    have hnone : (fun m =>
        let url := resolveCssUrl parentUrl m.token
        if isExternalUrl url then
          some { start := m.index + 4, stop := m.index + m.len - 1,
                 repl := (jsonStringify (replacer url)).data }
        else none : CssMatch → Option SpanEdit) m = none := by
      dsimp only
      rw [if_neg (by rw [hext]; exact Bool.false_ne_true)]
    exact scan_outside _ hfshape (text.data.length + 1) text.data 0 m hm
      hnone i h1 h2
  · intro h
    rw [replaceCssUrls, h]
    rfl

/-- Witness for C9: in a concrete stylesheet with one external `url(...)`,
the byte at offset 0 (outside the single edit span) is preserved at its
shifted output offset. -/
theorem replaceCssUrls_frame_witness :
    (replaceCssUrls "a:url(https://e.co/x.png)" "https://p.co/s.css"
        (fun _ => "/e.co/x.png")).data[
      shiftPos (cssEdits "a:url(https://e.co/x.png)" "https://p.co/s.css"
        (fun _ => "/e.co/x.png")) 0 0]?
      = ("a:url(https://e.co/x.png)" : String).data[0]? :=
  (replaceCssUrls_frame "a:url(https://e.co/x.png)" "https://p.co/s.css"
    (fun _ => "/e.co/x.png")).2.2.2.1 0 (by decide) (by decide)

end Rehost
